import Mathlib

/-!
# quicktemplate: the template-to-Go translator of `parser.go`

A shallow embedding of `parser.go` (package `quicktemplate`) together with
theorems about the signature splitter, the text emitter, the tag emitters, the
function block parser and the template driver.

Conventions of the embedding.

* Go `string` and `[]byte` values are lists of bytes (`Bytes`).
* The `io.Writer` is an append-only sink; every `fmt.Fprintf(w, ...)` of the
  source is one write, so the sink is the list of the chunks written so far and
  its text is their concatenation.
* `log.Fatalf` ends the process: a function that can reach it returns an
  `Abort` value naming the call site, and nothing after it runs.  A Go run-time
  panic of a slice or index expression is the value `Abort.outOfRange`.
* Loops whose bound is not structural carry an explicit fuel argument; running
  out of fuel is the value `Abort.outOfFuel`, which the theorems rule out.
-/

namespace Quicktemplate

/-! ## Bytes and the Go library functions used by `parser.go` -/

abbrev Byte := UInt8

abbrev Bytes := List Byte

/-- The bytes of a string literal of the source; every literal of `parser.go`
is ASCII, one byte per character. -/
def ascii (s : String) : Bytes := s.toList.map (fun c => c.toNat.toUInt8)

/-- The byte of the backtick character. -/
def backtick : Byte := 96

/-- The byte of an opening parenthesis. -/
def lparen : Byte := 40

/-- The byte of a closing parenthesis. -/
def rparen : Byte := 41

/-- The byte of a comma. -/
def comma : Byte := 44

/-- The ways a run of the translator ends early. One constructor per
`log.Fatalf` call of `parser.go`, one for a Go run-time panic of a slice or
index expression, and one for the fuel of the embedding. -/
inductive Abort where
  | unexpectedTagOutsideFunc   -- parseTemplate: "unexpected tag found outside func"
  | unexpectedTokenTemplate    -- parseTemplate: "unexpected token found when parsing template"
  | cannotParseTemplate        -- parseTemplate: "cannot parse template"
  | unexpectedTagInsideFunc    -- parseFunc: "unexpected tag found inside func"
  | unexpectedTokenFunc        -- parseFunc: "unexpected token found when parsing func"
  | cannotParseFunc            -- parseFunc: "cannot parse func"
  | missingOpenParen           -- splitFnameFargs: "missing '(' for function arguments"
  | missingCloseParen          -- splitFnameFargs: "missing ')' for function arguments"
  | cannotFindToken            -- expectToken: "cannot find token"
  | unexpectedTokenFound       -- expectToken: "unexpected token found"
  | outOfRange                 -- run-time panic: slice or index out of range
  | outOfFuel                  -- the embedding ran out of fuel (never a behaviour of the code)
  deriving DecidableEq, Repr

deriving instance DecidableEq for Except

/-- Go `s[:n]`: panics unless `n ≤ len(s)`. -/
def sliceTo (s : Bytes) (n : Nat) : Except Abort Bytes :=
  if n ≤ s.length then .ok (s.take n) else .error .outOfRange

/-- Go `s[n:]`: panics unless `n ≤ len(s)`. -/
def sliceFrom (s : Bytes) (n : Nat) : Except Abort Bytes :=
  if n ≤ s.length then .ok (s.drop n) else .error .outOfRange

/-- Go `s[n]`: panics unless `n < len(s)`. -/
def byteAt (s : Bytes) (n : Nat) : Except Abort Byte :=
  match s[n]? with
  | some b => .ok b
  | none => .error .outOfRange

/-- Go `bytes.IndexByte(s, c)` and `strings.Index(s, sep)` for a one-byte
`sep`: the index of the first occurrence, `none` for the result `-1`. -/
def indexByte (c : Byte) : Bytes → Option Nat
  | [] => none
  | b :: bs => if b = c then some 0 else (indexByte c bs).map (· + 1)

/-- Go `strings.LastIndex(s, sep)` for a one-byte `sep`: the index of the last
occurrence, `none` for the result `-1`. -/
def lastIndexByte (c : Byte) : Bytes → Option Nat
  | [] => none
  | b :: bs =>
    match lastIndexByte c bs with
    | some i => some (i + 1)
    | none => if b = c then some 0 else none

/-- Go `strings.Split(s, sep)` for a one-byte `sep`: the pieces of `s` between
the occurrences of `sep`; there is always at least one piece. -/
def stringsSplit (sep : Byte) : Bytes → List Bytes
  | [] => [[]]
  | b :: bs =>
    if b = sep then [] :: stringsSplit sep bs
    else
      match stringsSplit sep bs with
      | [] => [[b]]
      | piece :: pieces => (b :: piece) :: pieces

/-- Go `strings.Join(elems, sep)`. -/
def stringsJoin (sep : Bytes) : List Bytes → Bytes
  | [] => []
  | [a] => a
  | a :: b :: rest => a ++ sep ++ stringsJoin sep (b :: rest)

/-! ## The sink -/

/-- The `io.Writer` the translator writes to: the chunks written so far, oldest
first. -/
abbrev Sink := List Bytes

/-- The text a sink holds. -/
def Sink.text (w : Sink) : Bytes := w.flatten

/-- One `fmt.Fprintf(w, ...)` whose formatted text is `chunk`. -/
def fprintf (w : Sink) (chunk : Bytes) : Sink := w ++ [chunk]

/-! ## The signature splitter -/

/-- The loop `for n > 0 && isSpace(f[n-1]) { n-- }` of `splitFnameFargs`,
started at `n`. -/
def trimLoop (isSpace : Byte → Bool) (f : Bytes) : Nat → Except Abort Nat
  | 0 => .ok 0
  | n + 1 =>
    match byteAt f n with
    | .error e => .error e
    | .ok b => if isSpace b then trimLoop isSpace f n else .ok (n + 1)

/-- The loops `for n < len(a) && p(a[n]) { n++ }` of `splitFnameFargs`, started
at `n`; `p` is `isSpace` in the first loop and its negation in the second. -/
def scanLoop (p : Byte → Bool) (a : Bytes) : Nat → Nat → Except Abort Nat
  | 0, _ => .error .outOfFuel
  | fuel + 1, n =>
    if n < a.length then
      match byteAt a n with
      | .error e => .error e
      | .ok b => if p b then scanLoop p a fuel (n + 1) else .ok n
    else .ok n

/-- The body of the `range` loop of `splitFnameFargs`: the value appended to
`args` for the piece `a`. -/
def argName (isSpace : Byte → Bool) (a : Bytes) : Except Abort Bytes :=
  match scanLoop isSpace a (a.length + 1) 0 with
  | .error e => .error e
  | .ok n =>
    match sliceFrom a n with
    | .error e => .error e
    | .ok a1 =>
      match scanLoop (fun b => !isSpace b) a1 (a1.length + 1) 0 with
      | .error e => .error e
      | .ok m => sliceTo a1 m

/-- The `range` loop of `splitFnameFargs` over the pieces still to visit, with
the `args` collected so far. -/
def argNames (isSpace : Byte → Bool) : List Bytes → List Bytes → Except Abort (List Bytes)
  | [], args => .ok args
  | a :: rest, args =>
    match argName isSpace a with
    | .error e => .error e
    | .ok name => argNames isSpace rest (args ++ [name])

/-- The function `splitFnameFargs(s, f)`; the scanner argument is used for the
position in the messages only. `isSpace` is declared outside `parser.go` and is
a parameter here. The result is `(fname, fargs, fargsNoTypes)`. -/
def splitFnameFargs (isSpace : Byte → Bool) (f : Bytes) : Except Abort (Bytes × Bytes × Bytes) :=
  match indexByte lparen f with
  | none => .error .missingOpenParen
  | some n0 =>
    match trimLoop isSpace f n0 with
    | .error e => .error e
    | .ok n =>
      match sliceTo f n with
      | .error e => .error e
      | .ok fname =>
        match sliceFrom f (n + 1) with
        | .error e => .error e
        | .ok fargs0 =>
          match lastIndexByte rparen fargs0 with
          | none => .error .missingCloseParen
          | some m =>
            match sliceTo fargs0 m with
            | .error e => .error e
            | .ok fargs =>
              match argNames isSpace (stringsSplit comma fargs) [] with
              | .error e => .error e
              | .ok args => .ok (fname, fargs, stringsJoin (ascii ", ") args)

/-- Modelled from the spec: `isSpace` is declared outside `parser.go`; the spec
calls the bytes it accepts whitespace. This instance accepts the space, tab,
line feed and carriage return bytes and is used for concrete signatures only;
the general theorems hold for every `isSpace`. -/
def isSpaceAscii (b : Byte) : Bool := b = 32 || b = 9 || b = 10 || b = 13

/-! ## The text emitter -/

/-- The loop of `emitText`: one iteration per unit of fuel. -/
def emitTextLoop : Nat → Sink → Bytes → Except Abort Sink
  | 0, _, _ => .error .outOfFuel
  | fuel + 1, w, text =>
    if text.length > 0 then
      match indexByte backtick text with
      | none => .ok (fprintf w (ascii "w.E.S(`" ++ text ++ ascii "`)\n"))
      | some n =>
        match sliceTo text n with
        | .error e => .error e
        | .ok head =>
          let w1 := fprintf w (ascii "w.E.S(`" ++ head ++ ascii "`)\n")
          let w2 := fprintf w1 (ascii "w.E.S(\"`\")\n")
          match sliceFrom text (n + 1) with
          | .error e => .error e
          | .ok rest => emitTextLoop fuel w2 rest
    else .ok w

/-- The function `emitText(w, text)`. Every iteration but the last shortens
`text`, so `len(text) + 1` units of fuel are enough. -/
def emitText (w : Sink) (text : Bytes) : Except Abort Sink :=
  emitTextLoop (text.length + 1) w text

/-! ## Tokens and the token source -/

/-- The token kinds. `parser.go` names `Text`, `TagName` and `TagContents`; the
constants are declared outside it, and `other` stands for every further value of
the `int` field. -/
inductive TokenID where
  | Text
  | TagName
  | TagContents
  | other (k : Nat)
  deriving DecidableEq, Repr

/-- A token: the fields `ID` and `Value` that `parser.go` reads. -/
structure Token where
  ID : TokenID
  Value : Bytes
  deriving DecidableEq, Repr

/-- Modelled from the spec: the token source (`Scanner`) is declared outside
`parser.go`. It produces an ordered, non-rewindable sequence of tokens and
exposes advance, current token and last error: `input` holds the tokens not yet
produced, `tok` the current token, `err` whether the source ends with an
error. -/
structure Scanner where
  input : List Token
  tok : Token
  err : Bool
  deriving DecidableEq, Repr

/-- A scanner that has produced nothing yet. -/
def Scanner.start (input : List Token) (err : Bool) : Scanner :=
  ⟨input, ⟨TokenID.Text, []⟩, err⟩

/-- The method `s.Next()`: advances to the next token and tells whether there
was one. -/
def Scanner.Next (s : Scanner) : Bool × Scanner :=
  match s.input with
  | [] => (false, s)
  | t :: rest => (true, ⟨rest, t, s.err⟩)

/-- The method `s.Token()`. -/
def Scanner.Token (s : Scanner) : Token := s.tok

/-- The method `s.LastError()`: `true` stands for a non-nil error. -/
def Scanner.LastError (s : Scanner) : Bool := s.err

/-- How a function that reads tokens and writes to the sink ends: it returns,
leaving the scanner and the sink in some state, or the process ends inside it
with the sink as it was then. -/
inductive Outcome where
  | done (s : Scanner) (w : Sink)
  | aborted (e : Abort) (w : Sink)
  deriving DecidableEq, Repr

/-- The function `expectToken(s, id)`. -/
def expectToken (s : Scanner) (id : TokenID) : Except Abort (Token × Scanner) :=
  match s.Next with
  | (false, _) => .error .cannotFindToken
  | (true, s1) =>
    let t := s1.Token
    if t.ID ≠ id then .error .unexpectedTokenFound else .ok (t, s1)

/-- The function `expectTagContents(s)`. -/
def expectTagContents (s : Scanner) : Except Abort (Token × Scanner) :=
  expectToken s TokenID.TagContents

/-! ## The tag emitters -/

/-- The function `parseCode(s, w)`. -/
def parseCode (s : Scanner) (w : Sink) : Outcome :=
  match expectTagContents s with
  | .error e => .aborted e w
  | .ok (t, s1) => .done s1 (fprintf w (t.Value ++ ascii "\n"))

/-- The function `parseS(s, w)`. -/
def parseS (s : Scanner) (w : Sink) : Outcome :=
  match expectTagContents s with
  | .error e => .aborted e w
  | .ok (t, s1) => .done s1 (fprintf w (ascii "w.E.S(" ++ t.Value ++ ascii ")\n"))

/-- The function `parseD(s, w)`. -/
def parseD (s : Scanner) (w : Sink) : Outcome :=
  match expectTagContents s with
  | .error e => .aborted e w
  | .ok (t, s1) => .done s1 (fprintf w (ascii "w.D(" ++ t.Value ++ ascii ")\n"))

/-- The function `parseF(s, w)`. -/
def parseF (s : Scanner) (w : Sink) : Outcome :=
  match expectTagContents s with
  | .error e => .aborted e w
  | .ok (t, s1) => .done s1 (fprintf w (ascii "w.F(" ++ t.Value ++ ascii ")\n"))

/-! ## The function block parser -/

/-- The function `emitFuncStart(w, fname, fargs)`. -/
def emitFuncStart (w : Sink) (fname fargs : Bytes) : Sink :=
  fprintf w (ascii "\nfunc " ++ fname ++ ascii "Stream(w *quicktemplate.Writer, " ++ fargs
    ++ ascii ") \x7b\n")

/-- The function `emitFuncEnd(w, fname, fargs, fargsNoTypes)`: two writes. -/
def emitFuncEnd (w : Sink) (fname fargs fargsNoTypes : Bytes) : Sink :=
  let w1 := fprintf w (ascii "\x7d\n\n")
  fprintf w1 (ascii "func " ++ fname ++ ascii "(" ++ fargs
    ++ ascii ") string \x7b\n\tw := quicktemplate.AcquireWriter()\n\t" ++ fname
    ++ ascii "Stream(w, " ++ fargsNoTypes
    ++ ascii ")\n\ts := w.String()\n\tquicktemplate.ReleaseWriter(w)\n\treturn s\n\x7d")

/-- The loop `for s.Next() { ... }` of `parseFunc` and the check of
`s.LastError()` after it: one iteration per unit of fuel. -/
def parseFuncLoop (fname fargs fargsNoTypes : Bytes) : Nat → Scanner → Sink → Outcome
  | 0, _, w => .aborted .outOfFuel w
  | fuel + 1, s, w =>
    match s.Next with
    | (false, s1) =>
      if s1.LastError then .aborted .cannotParseFunc w else .done s1 w
    | (true, s1) =>
      let t := s1.Token
      match t.ID with
      | TokenID.Text =>
        match emitText w t.Value with
        | .error e => .aborted e w
        | .ok w1 => parseFuncLoop fname fargs fargsNoTypes fuel s1 w1
      | TokenID.TagName =>
        if t.Value = ascii "endfunc" then
          match expectTagContents s1 with
          | .error e => .aborted e w
          | .ok (_, s2) => .done s2 (emitFuncEnd w fname fargs fargsNoTypes)
        else if t.Value = ascii "s" then
          match parseS s1 w with
          | .aborted e w1 => .aborted e w1
          | .done s2 w1 => parseFuncLoop fname fargs fargsNoTypes fuel s2 w1
        else if t.Value = ascii "d" then
          match parseD s1 w with
          | .aborted e w1 => .aborted e w1
          | .done s2 w1 => parseFuncLoop fname fargs fargsNoTypes fuel s2 w1
        else if t.Value = ascii "f" then
          match parseF s1 w with
          | .aborted e w1 => .aborted e w1
          | .done s2 w1 => parseFuncLoop fname fargs fargsNoTypes fuel s2 w1
        else if t.Value = ascii "code" then
          match parseCode s1 w with
          | .aborted e w1 => .aborted e w1
          | .done s2 w1 => parseFuncLoop fname fargs fargsNoTypes fuel s2 w1
        else .aborted .unexpectedTagInsideFunc w
      | _ => .aborted .unexpectedTokenFunc w

/-- The function `parseFunc(s, w)`. Every iteration of its loop but the last
consumes a token, so one unit of fuel per token left, and one more, are
enough. -/
def parseFunc (isSpace : Byte → Bool) (s : Scanner) (w : Sink) : Outcome :=
  match expectTagContents s with
  | .error e => .aborted e w
  | .ok (t, s1) =>
    let fOrig := t.Value
    match splitFnameFargs isSpace fOrig with
    | .error e => .aborted e w
    | .ok (fname, fargs, fargsNoTypes) =>
      parseFuncLoop fname fargs fargsNoTypes (s1.input.length + 1) s1
        (emitFuncStart w fname fargs)

/-! ## The template driver -/

/-- The loop `for s.Next() { ... }` of `parseTemplate` and the check of
`s.LastError()` after it: one iteration per unit of fuel. -/
def parseTemplateLoop (isSpace : Byte → Bool) : Nat → Scanner → Sink → Outcome
  | 0, _, w => .aborted .outOfFuel w
  | fuel + 1, s, w =>
    match s.Next with
    | (false, s1) =>
      if s1.LastError then .aborted .cannotParseTemplate w else .done s1 w
    | (true, s1) =>
      let t := s1.Token
      match t.ID with
      | TokenID.Text => parseTemplateLoop isSpace fuel s1 w
      | TokenID.TagName =>
        if t.Value = ascii "code" then
          match parseCode s1 w with
          | .aborted e w1 => .aborted e w1
          | .done s2 w1 => parseTemplateLoop isSpace fuel s2 w1
        else if t.Value = ascii "func" then
          match parseFunc isSpace s1 w with
          | .aborted e w1 => .aborted e w1
          | .done s2 w1 => parseTemplateLoop isSpace fuel s2 w1
        else .aborted .unexpectedTagOutsideFunc w
      | _ => .aborted .unexpectedTokenTemplate w

/-- The function `parseTemplate(s, w)`. Every iteration of its loop but the
last consumes a token, so one unit of fuel per token left, and one more, are
enough. -/
def parseTemplate (isSpace : Byte → Bool) (s : Scanner) (w : Sink) : Outcome :=
  parseTemplateLoop isSpace (s.input.length + 1) s w

/-- The function `Parse(w, r)` once the scanner over `r` has produced the
tokens `input`, ending with an error or not: the translation of a token
sequence, started on an empty sink. -/
def translate (isSpace : Byte → Bool) (input : List Token) (err : Bool) : Outcome :=
  parseTemplate isSpace (Scanner.start input err) []

/-! ## Definitions used to state the properties -/

/-- The first word of a piece of the argument list: the leading whitespace is
dropped, then the longest leading run of non-whitespace bytes is taken. -/
def firstWord (isSpace : Byte → Bool) (seg : Bytes) : Bytes :=
  (seg.dropWhile isSpace).takeWhile (fun b => !isSpace b)

/-- The text of the call `emitText` writes for a run `r` without a backtick:
the run inside a back-quoted raw literal. -/
def rawCall (r : Bytes) : Bytes := ascii "w.E.S(`" ++ r ++ ascii "`)\n"

/-- The text of the call `emitText` writes for one backtick: the interpreted
literal that holds it. -/
def quotedCall : Bytes := ascii "w.E.S(\"`\")\n"

/-- The list `l` without its leading `pre`, when it starts with `pre`. -/
def dropLeading (pre l : Bytes) : Option Bytes :=
  if l.take pre.length = pre then some (l.drop pre.length) else none

/-- The list `l` without its trailing `suf`, when it ends with `suf`. -/
def dropTrailing (suf l : Bytes) : Option Bytes :=
  (dropLeading suf.reverse l.reverse).map List.reverse

/-- The byte of a carriage return. -/
def cr : Byte := 13

/-- The byte of a line feed. -/
def lf : Byte := 10

/-- A text without its carriage returns. -/
def dropCR (l : Bytes) : Bytes := l.filter (fun b => b != cr)

/-- The string value a literal of the generated code denotes in Go, for the two
shapes of literal `emitText` writes: the interpreted literal that holds one
backtick denotes that backtick; a back-quoted raw literal, which cannot hold a
backtick, denotes its contents with the carriage returns discarded, as the Go
language specification says of raw string literals. Any other text has no value
here. -/
def literalValue (lit : Bytes) : Option Bytes :=
  if lit = ascii "\"`\"" then some [backtick]
  else
    (dropLeading [backtick] lit).bind fun r =>
      (dropTrailing [backtick] r).bind fun c =>
        if backtick ∈ c then none else some (dropCR c)

/-- The string value written at execution time by one emitted call
`w.E.S(<literal>)` followed by a line feed. -/
def callValue (chunk : Bytes) : Option Bytes :=
  (dropLeading (ascii "w.E.S(") chunk).bind fun r =>
    (dropTrailing (ascii ")\n") r).bind literalValue

/-- The concatenation, in order, of the values of a sequence of emitted
calls. -/
def decodeCalls : List Bytes → Option Bytes
  | [] => some []
  | c :: cs =>
    match callValue c, decodeCalls cs with
    | some v, some vs => some (v ++ vs)
    | _, _ => none

/-- The sink an outcome leaves behind, whether the run returned or the
process ended. -/
def Outcome.sink : Outcome → Sink
  | .done _ w => w
  | .aborted _ w => w

/-- A valid item of a function body: a `Text` token, or one of the tags `s`,
`d`, `f` and `code` with its `TagContents` token. -/
inductive BodyItem where
  | text (value : Bytes)
  | s (contents : Bytes)
  | d (contents : Bytes)
  | f (contents : Bytes)
  | code (contents : Bytes)
  deriving DecidableEq, Repr

/-- The tokens of a body item. -/
def BodyItem.tokens : BodyItem → List Token
  | .text v => [⟨TokenID.Text, v⟩]
  | .s c => [⟨TokenID.TagName, ascii "s"⟩, ⟨TokenID.TagContents, c⟩]
  | .d c => [⟨TokenID.TagName, ascii "d"⟩, ⟨TokenID.TagContents, c⟩]
  | .f c => [⟨TokenID.TagName, ascii "f"⟩, ⟨TokenID.TagContents, c⟩]
  | .code c => [⟨TokenID.TagName, ascii "code"⟩, ⟨TokenID.TagContents, c⟩]

/-- The tokens of a sequence of body items. -/
def bodyTokens (items : List BodyItem) : List Token :=
  (items.map BodyItem.tokens).flatten

/-- The emission of a body item: the chunks its emitter of `parser.go` writes,
read off a run of that emitter on an empty sink. -/
def BodyItem.emission : BodyItem → List Bytes
  | .text v =>
    match emitText [] v with
    | .ok w => w
    | .error _ => []
  | .s c => (parseS (Scanner.start [⟨TokenID.TagContents, c⟩] false) []).sink
  | .d c => (parseD (Scanner.start [⟨TokenID.TagContents, c⟩] false) []).sink
  | .f c => (parseF (Scanner.start [⟨TokenID.TagContents, c⟩] false) []).sink
  | .code c => (parseCode (Scanner.start [⟨TokenID.TagContents, c⟩] false) []).sink

/-- Whether a body item is plain: every tag item is, and a `Text` item is when
its value is not empty and holds no backtick. -/
def BodyItem.plain : BodyItem → Bool
  | .text v => decide (v ≠ [] ∧ backtick ∉ v)
  | _ => true

/-- The value of a body item: the value of its `Text` token or of its
`TagContents` token. -/
def BodyItem.value : BodyItem → Bytes
  | .text v => v
  | .s c => c
  | .d c => c
  | .f c => c
  | .code c => c

/-- Whether a body item is written on one line: it is plain and its value holds
no line feed. -/
def BodyItem.oneLine (item : BodyItem) : Bool :=
  item.plain && decide (lf ∉ item.value)

/-- The emissions of a sequence of body items, in order. -/
def bodyEmission (items : List BodyItem) : List Bytes :=
  (items.map BodyItem.emission).flatten

/-- The token of a tag name. -/
def tagName (name : String) : Token := ⟨TokenID.TagName, ascii name⟩

/-- The token of the contents of a tag. -/
def tagContents (value : Bytes) : Token := ⟨TokenID.TagContents, value⟩

/-- The tokens of a function block without its `endfunc`: the `func` tag, its
signature and the body items. -/
def openBlock (sig : Bytes) (items : List BodyItem) : List Token :=
  tagName "func" :: tagContents sig :: bodyTokens items

/-- The tokens of a complete function block: the `func` tag, its signature, the
body items, the `endfunc` tag and its contents. -/
def funcBlock (sig : Bytes) (items : List BodyItem) (c : Bytes) : List Token :=
  openBlock sig items ++ [tagName "endfunc", tagContents c]

/-- An outcome of a run started with `n` tokens left is sound when, if the
process ended, it ended at a `log.Fatalf` call of the source, and if the run
returned, no more than `n` tokens are left. -/
def Outcome.Sound (n : Nat) : Outcome → Prop
  | .aborted e _ => e ≠ Abort.outOfFuel ∧ e ≠ Abort.outOfRange
  | .done s _ => s.input.length ≤ n

/-- What ended the run early, if anything did. -/
def Outcome.abort : Outcome → Option Abort
  | .done _ _ => none
  | .aborted e _ => some e

/-- The common shape of `parseCode`, `parseS`, `parseD` and `parseF`: read the
contents of the tag, then write the line `line` makes of them. -/
def tagEmit (line : Bytes → Bytes) (s : Scanner) (w : Sink) : Outcome :=
  match expectTagContents s with
  | .error e => .aborted e w
  | .ok (t, s1) => .done s1 (fprintf w (line t.Value))

/-- A complete unit of the outermost level: a `Text` token, a `code` tag with
its contents, or a function block from `func` to the contents of `endfunc`. -/
inductive TopItem where
  | text (value : Bytes)
  | code (contents : Bytes)
  | func (sig : Bytes) (items : List BodyItem) (contents : Bytes)
  deriving DecidableEq, Repr

/-- The tokens of a unit. -/
def TopItem.tokens : TopItem → List Token
  | .text v => [⟨TokenID.Text, v⟩]
  | .code c => [tagName "code", tagContents c]
  | .func sig items c => funcBlock sig items c

/-- The tokens of a sequence of units. -/
def topTokens (us : List TopItem) : List Token :=
  (us.map TopItem.tokens).flatten

/-- Whether a unit is well formed: the signature of a function block has to
split. -/
def TopItem.splittable (isSpace : Byte → Bool) : TopItem → Bool
  | .func sig _ _ =>
    match splitFnameFargs isSpace sig with
    | .ok _ => true
    | .error _ => false
  | _ => true

/-- The output of a unit: what the translation of its tokens alone writes. -/
def TopItem.output (isSpace : Byte → Bool) (u : TopItem) : Sink :=
  (translate isSpace u.tokens false).sink

/-- The outputs of a sequence of units, in order. -/
def topOutput (isSpace : Byte → Bool) (us : List TopItem) : Sink :=
  (us.map (TopItem.output isSpace)).flatten

/-- Two token sequences that are equal, or differ only in the value of the
`TagContents` token that follows one `endfunc` tag. -/
inductive Variant : List Token → List Token → Prop where
  | same (l : List Token) : Variant l l
  | here (c1 c2 : Bytes) (post : List Token) :
      Variant (tagName "endfunc" :: tagContents c1 :: post)
        (tagName "endfunc" :: tagContents c2 :: post)
  | cons (t : Token) {l1 l2 : List Token} : Variant l1 l2 → Variant (t :: l1) (t :: l2)

/-- Two outcomes agree up to the sink prefix `w0` when both runs end the same
way, the sink of the first is `w0` followed by the sink of the second, and, if
they returned, the token sources are left with the same error and with variant
inputs. -/
def Outcome.Agree (w0 : Sink) : Outcome → Outcome → Prop
  | .done s1 w1, .done s2 w2 => w1 = w0 ++ w2 ∧ s1.err = s2.err ∧ Variant s1.input s2.input
  | .aborted e1 w1, .aborted e2 w2 => e1 = e2 ∧ w1 = w0 ++ w2
  | _, _ => False

/-- The error of `expectTagContents` when the next token is not a `TagContents`
token: the token source is exhausted, or the token is of another kind. -/
def missingContents : List Token → Abort
  | [] => Abort.cannotFindToken
  | _ :: _ => Abort.unexpectedTokenFound

/-- The text before the first `(` of a signature; all of it when there is no
`(`. -/
def beforeFirstParen (f : Bytes) : Bytes := f.takeWhile (fun b => b != lparen)

/-- The text after the first `(` of a signature; empty when there is no
`(`. -/
def afterFirstParen (f : Bytes) : Bytes := (f.dropWhile (fun b => b != lparen)).drop 1

/-! # Theorems -/

/-! ## Slices, indices and the Go library functions -/

theorem byteAt_of_lt (s : Bytes) (n : Nat) (h : n < s.length) : byteAt s n = .ok s[n] := by
  simp [byteAt, List.getElem?_eq_getElem h]

theorem mem_of_byteAt (s : Bytes) (n : Nat) (b : Byte) (h : byteAt s n = .ok b) : b ∈ s := by
  unfold byteAt at h
  split at h
  · next c hc =>
    cases h
    exact List.getElem?_mem hc
  · cases h

theorem indexByte_none (c : Byte) (l : Bytes) : indexByte c l = none ↔ c ∉ l := by
  induction l with
  | nil => simp [indexByte]
  | cons b l ih =>
    unfold indexByte
    by_cases hb : b = c
    · simp [hb]
    · simp only [hb, if_false, Option.map_eq_none', ih, List.mem_cons]
      constructor
      · intro h hc
        rcases hc with h1 | h1
        · exact hb h1.symm
        · exact h h1
      · intro h hc
        exact h (Or.inr hc)

theorem indexByte_some (c : Byte) (l : Bytes) (n : Nat) (h : indexByte c l = some n) :
    n < l.length ∧ c ∉ l.take n ∧ l = l.take n ++ c :: l.drop (n + 1) := by
  induction l generalizing n with
  | nil => simp [indexByte] at h
  | cons b l ih =>
    unfold indexByte at h
    by_cases hb : b = c
    · rw [if_pos hb] at h
      cases h
      simp [hb]
    · rw [if_neg hb] at h
      cases hi : indexByte c l with
      | none => rw [hi] at h; cases h
      | some m =>
        rw [hi] at h
        simp only [Option.map_some', Option.some.injEq] at h
        subst h
        obtain ⟨h1, h2, h3⟩ := ih m hi
        refine ⟨by simp; omega, ?_, ?_⟩
        · simp only [List.take_succ_cons, List.mem_cons, not_or]
          exact ⟨fun hc => hb hc.symm, h2⟩
        · simp only [List.take_succ_cons, List.drop_succ_cons, List.cons_append]
          rw [← h3]

theorem lastIndexByte_lt (c : Byte) (l : Bytes) (m : Nat) (h : lastIndexByte c l = some m) :
    m < l.length := by
  induction l generalizing m with
  | nil => simp [lastIndexByte] at h
  | cons b l ih =>
    unfold lastIndexByte at h
    cases hl : lastIndexByte c l with
    | some i =>
      rw [hl] at h
      simp only [Option.some.injEq] at h
      subst h
      have := ih i hl
      simp only [List.length_cons]
      omega
    | none =>
      rw [hl] at h
      simp only at h
      split at h
      · cases h
        simp
      · cases h

theorem lastIndexByte_drop (c : Byte) (l : Bytes) :
    ∀ (m j : Nat), lastIndexByte c l = some m → j ≤ m →
      lastIndexByte c (l.drop j) = some (m - j) := by
  induction l with
  | nil => intro m j h; simp [lastIndexByte] at h
  | cons b l ih =>
    intro m j h hj
    cases j with
    | zero => simpa using h
    | succ j =>
      unfold lastIndexByte at h
      cases hl : lastIndexByte c l with
      | some i =>
        rw [hl] at h
        simp only [Option.some.injEq] at h
        subst h
        have := ih i j hl (by omega)
        simpa using this
      | none =>
        rw [hl] at h
        simp only at h
        split at h
        · cases h; omega
        · cases h

theorem drop_length_takeWhile (p : Byte → Bool) (l : Bytes) :
    l.drop (l.takeWhile p).length = l.dropWhile p := by
  induction l with
  | nil => simp
  | cons b l ih =>
    by_cases hp : p b = true
    · simp [List.takeWhile_cons_of_pos hp, List.dropWhile_cons_of_pos hp, ih]
    · simp [List.takeWhile_cons_of_neg hp, List.dropWhile_cons_of_neg hp]

theorem take_length_takeWhile (p : Byte → Bool) (l : Bytes) :
    l.take (l.takeWhile p).length = l.takeWhile p := by
  induction l with
  | nil => simp
  | cons b l ih =>
    by_cases hp : p b = true
    · simp [List.takeWhile_cons_of_pos hp, ih]
    · simp [List.takeWhile_cons_of_neg hp]

theorem length_takeWhile_le (p : Byte → Bool) (l : Bytes) :
    (l.takeWhile p).length ≤ l.length :=
  (List.takeWhile_sublist p).length_le

theorem length_rdropWhile_le (p : Byte → Bool) (l : Bytes) :
    (l.rdropWhile p).length ≤ l.length :=
  (List.rdropWhile_prefix p l).length_le

/-! ## The Go library functions against the list functions of the library -/

theorem stringsSplit_eq_splitOn (sep : Byte) (l : Bytes) :
    stringsSplit sep l = l.splitOn sep := by
  induction l with
  | nil => simp [stringsSplit, List.splitOn]
  | cons b l ih =>
    unfold stringsSplit
    rw [List.splitOn, List.splitOnP_cons, ← List.splitOn, ← ih]
    by_cases hb : b = sep
    · simp [hb]
    · have : (b == sep) = false := by simpa using hb
      simp only [hb, if_false, this]
      cases hs : stringsSplit sep l with
      | nil =>
        rw [hs] at ih
        exact absurd ih.symm (List.splitOnP_ne_nil _ l)
      | cons piece pieces => simp

theorem stringsJoin_eq_intercalate (sep : Bytes) (l : List Bytes) :
    stringsJoin sep l = sep.intercalate l := by
  induction l with
  | nil => simp [stringsJoin, List.intercalate]
  | cons a rest ih =>
    cases rest with
    | nil => simp [stringsJoin, List.intercalate]
    | cons b rest =>
      rw [stringsJoin, ih]
      simp [List.intercalate, List.intersperse]

theorem stringsSplit_ne_nil (sep : Byte) (l : Bytes) : stringsSplit sep l ≠ [] := by
  cases l with
  | nil => simp [stringsSplit]
  | cons b l =>
    unfold stringsSplit
    split
    · simp
    · split <;> simp

theorem length_stringsSplit (sep : Byte) (l : Bytes) :
    (stringsSplit sep l).length = l.count sep + 1 := by
  induction l with
  | nil => simp [stringsSplit]
  | cons b l ih =>
    unfold stringsSplit
    by_cases hb : b = sep
    · subst hb
      simp [ih]
    · have hne : (b == sep) = false := by simpa using hb
      rw [if_neg hb, List.count_cons, hne]
      cases hs : stringsSplit sep l with
      | nil => exact absurd hs (stringsSplit_ne_nil sep l)
      | cons piece pieces =>
        rw [hs] at ih
        simpa using ih

theorem not_mem_of_mem_stringsSplit (sep : Byte) (l : Bytes) :
    ∀ piece ∈ stringsSplit sep l, sep ∉ piece := by
  induction l with
  | nil => simp [stringsSplit]
  | cons b l ih =>
    unfold stringsSplit
    by_cases hb : b = sep
    · rw [if_pos hb]
      intro piece hp
      rcases List.mem_cons.mp hp with h | h
      · simp [h]
      · exact ih piece h
    · rw [if_neg hb]
      cases hs : stringsSplit sep l with
      | nil => exact absurd hs (stringsSplit_ne_nil sep l)
      | cons piece pieces =>
        rw [hs] at ih
        intro q hq
        rcases List.mem_cons.mp hq with h | h
        · subst h
          intro hmem
          rcases List.mem_cons.mp hmem with h1 | h1
          · exact hb h1.symm
          · exact ih piece (List.mem_cons_self _ _) h1
        · exact ih q (List.mem_cons_of_mem _ h)

theorem mem_of_mem_stringsSplit (sep : Byte) (l : Bytes) :
    ∀ piece ∈ stringsSplit sep l, ∀ b ∈ piece, b ∈ l := by
  induction l with
  | nil => simp [stringsSplit]
  | cons c l ih =>
    unfold stringsSplit
    by_cases hc : c = sep
    · rw [if_pos hc]
      intro piece hp b hb
      rcases List.mem_cons.mp hp with h | h
      · subst h; cases hb
      · exact List.mem_cons_of_mem _ (ih piece h b hb)
    · rw [if_neg hc]
      cases hs : stringsSplit sep l with
      | nil => exact absurd hs (stringsSplit_ne_nil sep l)
      | cons piece pieces =>
        rw [hs] at ih
        intro x hx b hb
        rcases List.mem_cons.mp hx with h | h
        · subst h
          rcases List.mem_cons.mp hb with h1 | h1
          · subst h1; exact List.mem_cons_self _ _
          · exact List.mem_cons_of_mem _ (ih piece (List.mem_cons_self _ _) b h1)
        · exact List.mem_cons_of_mem _ (ih x (List.mem_cons_of_mem _ h) b hb)

theorem count_comma_stringsJoin (l : List Bytes) (hl : l ≠ [])
    (h : ∀ x ∈ l, comma ∉ x) :
    (stringsJoin (ascii ", ") l).count comma = l.length - 1 := by
  induction l with
  | nil => exact absurd rfl hl
  | cons a rest ih =>
    have ha : a.count comma = 0 := List.count_eq_zero_of_not_mem (h a (List.mem_cons_self _ _))
    cases rest with
    | nil => simpa [stringsJoin] using ha
    | cons b rest =>
      have hrest := ih (by simp) (fun x hx => h x (List.mem_cons_of_mem _ hx))
      have hsep : (ascii ", ").count comma = 1 := by decide
      rw [stringsJoin, List.count_append, List.count_append, ha, hsep, hrest]
      simp only [List.length_cons]
      omega

/-! ## The loops of the signature splitter -/

theorem scanLoop_eq (p : Byte → Bool) (a : Bytes) :
    ∀ (fuel n : Nat), a.length - n < fuel →
      scanLoop p a fuel n = .ok (n + ((a.drop n).takeWhile p).length) := by
  intro fuel
  induction fuel with
  | zero => intro n h; omega
  | succ fuel ih =>
    intro n h
    unfold scanLoop
    by_cases hn : n < a.length
    · rw [if_pos hn, byteAt_of_lt a n hn]
      have hd : a.drop n = a[n] :: a.drop (n + 1) := List.drop_eq_getElem_cons hn
      by_cases hp : p a[n] = true
      · simp only [hp, if_true]
        rw [ih (n + 1) (by omega), hd, List.takeWhile_cons_of_pos hp]
        simp only [List.length_cons]
        congr 1
        omega
      · simp only [hp]
        rw [hd, List.takeWhile_cons_of_neg hp]
        simp
    · rw [if_neg hn]
      have : a.drop n = [] := List.drop_eq_nil_of_le (by omega)
      simp [this]

/-- The body of the `range` loop never fails and computes the first word. -/
theorem argName_eq (isSpace : Byte → Bool) (a : Bytes) :
    argName isSpace a = .ok (firstWord isSpace a) := by
  unfold argName
  rw [scanLoop_eq isSpace a _ 0 (by omega)]
  simp only [List.drop_zero, Nat.zero_add]
  have h1 : (a.takeWhile isSpace).length ≤ a.length := length_takeWhile_le _ _
  simp only [sliceFrom, if_pos h1, drop_length_takeWhile]
  rw [scanLoop_eq _ _ _ 0 (by omega)]
  simp only [List.drop_zero, Nat.zero_add]
  simp only [sliceTo, if_pos (length_takeWhile_le _ _), take_length_takeWhile]
  rfl

theorem argNames_eq (isSpace : Byte → Bool) (pieces args : List Bytes) :
    argNames isSpace pieces args = .ok (args ++ pieces.map (firstWord isSpace)) := by
  induction pieces generalizing args with
  | nil => simp [argNames]
  | cons a rest ih => simp [argNames, argName_eq, ih]

theorem firstWord_sublist (isSpace : Byte → Bool) (seg : Bytes) :
    (firstWord isSpace seg).Sublist seg :=
  (List.takeWhile_sublist _).trans (List.dropWhile_sublist _)

theorem trimLoop_eq (isSpace : Byte → Bool) (f : Bytes) (n : Nat) (h : n ≤ f.length) :
    trimLoop isSpace f n = .ok ((f.take n).rdropWhile isSpace).length := by
  induction n with
  | zero => simp [trimLoop]
  | succ n ih =>
    have hn : n < f.length := h
    have ht : f.take (n + 1) = f.take n ++ [f[n]] := by
      rw [List.take_succ, List.getElem?_eq_getElem hn]
      rfl
    unfold trimLoop
    rw [byteAt_of_lt f n hn]
    by_cases hp : isSpace f[n] = true
    · simp only [hp, if_true]
      rw [ih (Nat.le_of_lt hn), ht, List.rdropWhile_concat_pos _ _ _ hp]
    · rw [ht, List.rdropWhile_concat_neg _ _ _ hp]
      simp only [hp, Bool.false_eq_true, if_false, List.length_append, List.length_take,
        List.length_singleton, Nat.min_eq_left (Nat.le_of_lt hn)]

/-- On success the third component is computed from the second one. -/
theorem splitFnameFargs_names (isSpace : Byte → Bool) (f fname fargs names : Bytes)
    (h : splitFnameFargs isSpace f = .ok (fname, fargs, names)) :
    names = stringsJoin (ascii ", ") ((stringsSplit comma fargs).map (firstWord isSpace)) := by
  unfold splitFnameFargs at h
  split at h
  · cases h
  · split at h
    · cases h
    · split at h
      · cases h
      · split at h
        · cases h
        · split at h
          · cases h
          · split at h
            · cases h
            · rw [argNames_eq] at h
              simp only [List.nil_append, Except.ok.injEq, Prod.mk.injEq] at h
              obtain ⟨-, h2, h3⟩ := h
              rw [← h3, h2]

/-! ## The signature splitter in closed form -/

/-- What `splitFnameFargs` computes when the text has a `(` at index `n0`,
first: the name is the text before it without its trailing whitespace, of
length `k`; the arguments are sliced from index `k + 1`, up to the last `)`
after that index. -/
theorem splitFnameFargs_eq (isSpace : Byte → Bool) (f : Bytes) (n0 : Nat)
    (h0 : indexByte lparen f = some n0) :
    splitFnameFargs isSpace f
      = match lastIndexByte rparen (f.drop (((f.take n0).rdropWhile isSpace).length + 1)) with
        | none => .error .missingCloseParen
        | some m =>
          .ok ((f.take n0).rdropWhile isSpace,
            (f.drop (((f.take n0).rdropWhile isSpace).length + 1)).take m,
            stringsJoin (ascii ", ")
              ((stringsSplit comma
                ((f.drop (((f.take n0).rdropWhile isSpace).length + 1)).take m)).map
                  (firstWord isSpace))) := by
  obtain ⟨hlt, -, -⟩ := indexByte_some _ _ _ h0
  have hk : ((f.take n0).rdropWhile isSpace).length ≤ n0 := by
    have := length_rdropWhile_le isSpace (f.take n0)
    rw [List.length_take] at this
    omega
  have hname : f.take ((f.take n0).rdropWhile isSpace).length = (f.take n0).rdropWhile isSpace := by
    have hp : (f.take n0).rdropWhile isSpace <+: f :=
      (List.rdropWhile_prefix isSpace (f.take n0)).trans (List.take_prefix n0 f)
    exact (List.prefix_iff_eq_take.mp hp).symm
  unfold splitFnameFargs
  rw [h0]
  simp only
  rw [trimLoop_eq isSpace f n0 (Nat.le_of_lt hlt)]
  simp only [sliceTo, sliceFrom]
  rw [if_pos (by omega), if_pos (by omega)]
  simp only [hname]
  cases hm : lastIndexByte rparen (f.drop (((f.take n0).rdropWhile isSpace).length + 1)) with
  | none => rfl
  | some m =>
    have hmlt := lastIndexByte_lt _ _ _ hm
    simp only
    rw [if_pos (Nat.le_of_lt hmlt)]
    simp only [argNames_eq, List.nil_append]

/-- The signature splitter fails with one of its two messages only: no slice
or index of it is out of range and its loops do not run out of fuel. -/
theorem splitFnameFargs_error (isSpace : Byte → Bool) (f : Bytes) (e : Abort)
    (h : splitFnameFargs isSpace f = .error e) :
    e = Abort.missingOpenParen ∨ e = Abort.missingCloseParen := by
  cases h0 : indexByte lparen f with
  | none =>
    unfold splitFnameFargs at h
    rw [h0] at h
    cases h
    exact Or.inl rfl
  | some n0 =>
    rw [splitFnameFargs_eq isSpace f n0 h0] at h
    split at h
    · cases h
      exact Or.inr rfl
    · cases h

/-- The typed arguments when no whitespace precedes the parenthesis: if the
byte before the first `(` is not whitespace (or the `(` is the first byte), the
name is the text before the first `(` and the typed arguments are the text
strictly between the first `(` and the last `)`. -/
theorem splitFnameFargs_args_between (isSpace : Byte → Bool) (f : Bytes) (n0 m : Nat)
    (h0 : indexByte lparen f = some n0) (h1 : lastIndexByte rparen f = some m) (hlt : n0 < m)
    (hns : ∀ b, (f.take n0).getLast? = some b → isSpace b = false) :
    ∃ names, splitFnameFargs isSpace f = .ok (f.take n0, (f.take m).drop (n0 + 1), names) := by
  obtain ⟨hn0, -, -⟩ := indexByte_some _ _ _ h0
  have hself : (f.take n0).rdropWhile isSpace = f.take n0 := by
    rw [List.rdropWhile_eq_self_iff]
    intro hl
    have := hns _ (List.getLast?_eq_getLast _ hl)
    simp [this]
  have hlen : (f.take n0).length = n0 := by
    rw [List.length_take]; omega
  rw [splitFnameFargs_eq isSpace f n0 h0, hself, hlen,
    lastIndexByte_drop rparen f m (n0 + 1) h1 hlt]
  simp only [List.drop_take]
  exact ⟨_, rfl⟩

theorem splitFnameFargs_args_between_witness :
    ∃ names, splitFnameFargs isSpaceAscii (ascii "Page(a int)")
      = .ok ((ascii "Page(a int)").take 4, ((ascii "Page(a int)").take 10).drop (4 + 1), names) :=
  splitFnameFargs_args_between isSpaceAscii (ascii "Page(a int)") 4 10 (by decide) (by decide)
    (by decide) (by decide)

/-! ## The splitter reads `isSpace` on the bytes of the signature only -/

theorem trimLoop_congr (p q : Byte → Bool) (f : Bytes) (h : ∀ b ∈ f, p b = q b) (n : Nat) :
    trimLoop p f n = trimLoop q f n := by
  induction n with
  | zero => rfl
  | succ n ih =>
    unfold trimLoop
    cases hb : byteAt f n with
    | error e => rfl
    | ok b => simp only [h b (mem_of_byteAt f n b hb), ih]

theorem scanLoop_congr (p q : Byte → Bool) (a : Bytes) (h : ∀ b ∈ a, p b = q b) :
    ∀ fuel n, scanLoop p a fuel n = scanLoop q a fuel n := by
  intro fuel
  induction fuel with
  | zero => intro n; rfl
  | succ fuel ih =>
    intro n
    unfold scanLoop
    cases hb : byteAt a n with
    | error e => rfl
    | ok b => simp only [h b (mem_of_byteAt a n b hb), ih]

theorem argName_congr (p q : Byte → Bool) (a : Bytes) (h : ∀ b ∈ a, p b = q b) :
    argName p a = argName q a := by
  unfold argName
  rw [scanLoop_congr p q a h]
  cases scanLoop q a (a.length + 1) 0 with
  | error e => rfl
  | ok n =>
    simp only
    cases h1 : sliceFrom a n with
    | error e => rfl
    | ok a1 =>
      simp only
      have hsub : ∀ b ∈ a1, b ∈ a := by
        unfold sliceFrom at h1
        split at h1
        · cases h1
          exact fun b hb => List.mem_of_mem_drop hb
        · cases h1
      rw [scanLoop_congr (fun b => !p b) (fun b => !q b) a1
        (fun b hb => by simp only [h b (hsub b hb)])]

theorem argNames_congr (p q : Byte → Bool) (pieces : List Bytes)
    (h : ∀ a ∈ pieces, ∀ b ∈ a, p b = q b) (args : List Bytes) :
    argNames p pieces args = argNames q pieces args := by
  induction pieces generalizing args with
  | nil => rfl
  | cons a rest ih =>
    unfold argNames
    rw [argName_congr p q a (h a (List.mem_cons_self _ _))]
    cases argName q a with
    | error e => rfl
    | ok name => exact ih (fun a ha => h a (List.mem_cons_of_mem _ ha)) _

theorem splitFnameFargs_congr (p q : Byte → Bool) (f : Bytes) (h : ∀ b ∈ f, p b = q b) :
    splitFnameFargs p f = splitFnameFargs q f := by
  unfold splitFnameFargs
  cases indexByte lparen f with
  | none => rfl
  | some n0 =>
    simp only
    rw [trimLoop_congr p q f h]
    cases trimLoop q f n0 with
    | error e => rfl
    | ok n =>
      simp only
      cases sliceTo f n with
      | error e => rfl
      | ok fname =>
        simp only
        cases h1 : sliceFrom f (n + 1) with
        | error e => rfl
        | ok fargs0 =>
          simp only
          cases lastIndexByte rparen fargs0 with
          | none => rfl
          | some m =>
            simp only
            cases h2 : sliceTo fargs0 m with
            | error e => rfl
            | ok fargs =>
              simp only
              have hsub : ∀ b ∈ fargs, b ∈ f := by
                unfold sliceFrom at h1
                unfold sliceTo at h2
                split at h1
                · split at h2
                  · cases h1; cases h2
                    exact fun b hb => List.mem_of_mem_drop (List.mem_of_mem_take hb)
                  · cases h2
                · cases h1
              rw [argNames_congr p q _ (fun a ha b hb =>
                h b (hsub b (mem_of_mem_stringsSplit comma fargs a ha b hb)))]

/-! ## The claims about the signature splitter -/

/-- C2 at the input `Page (a int)`, for every `isSpace` that accepts the space
byte and rejects the other bytes of the text: the typed arguments the code
returns are `(a int`, not the text `a int` between the parentheses, because the
index of the `(` is moved back over the whitespace before the arguments are
sliced. -/
theorem splitFnameFargs_space_before_paren (isSpace : Byte → Bool) (hs : isSpace 32 = true)
    (hn : ∀ b ∈ ascii "Page (a int)", b ≠ 32 → isSpace b = false) :
    splitFnameFargs isSpace (ascii "Page (a int)")
      = .ok (ascii "Page", ascii "(a int", ascii "(a") := by
  rw [splitFnameFargs_congr isSpace isSpaceAscii]
  · decide
  · intro b hb
    by_cases h32 : b = 32
    · subst h32; rw [hs]; rfl
    · rw [hn b hb h32]
      revert b
      decide

theorem splitFnameFargs_space_before_paren_witness :
    isSpaceAscii 32 = true
      ∧ (∀ b ∈ ascii "Page (a int)", b ≠ 32 → isSpaceAscii b = false)
      ∧ splitFnameFargs isSpaceAscii (ascii "Page (a int)")
          = .ok (ascii "Page", ascii "(a int", ascii "(a") :=
  ⟨by decide, by decide, splitFnameFargs_space_before_paren isSpaceAscii (by decide) (by decide)⟩

/-- C4. The worked example of the signature splitter: for every `isSpace` that
accepts the space byte and rejects the other bytes of the text, the signature
text `Page(title string, n int)` splits into the name `Page`, the typed
arguments `title string, n int` and the names `title, n`. -/
theorem splitFnameFargs_worked_example (isSpace : Byte → Bool) (hs : isSpace 32 = true)
    (hn : ∀ b ∈ ascii "Page(title string, n int)", b ≠ 32 → isSpace b = false) :
    splitFnameFargs isSpace (ascii "Page(title string, n int)")
      = .ok (ascii "Page", ascii "title string, n int", ascii "title, n") := by
  rw [splitFnameFargs_congr isSpace isSpaceAscii]
  · decide
  · intro b hb
    by_cases h32 : b = 32
    · subst h32; rw [hs]; rfl
    · rw [hn b hb h32]
      revert b
      decide

theorem splitFnameFargs_worked_example_witness :
    isSpaceAscii 32 = true
      ∧ (∀ b ∈ ascii "Page(title string, n int)", b ≠ 32 → isSpaceAscii b = false)
      ∧ splitFnameFargs isSpaceAscii (ascii "Page(title string, n int)")
          = .ok (ascii "Page", ascii "title string, n int", ascii "title, n") :=
  ⟨by decide, by decide, splitFnameFargs_worked_example isSpaceAscii (by decide) (by decide)⟩

/-- C9. Whenever `splitFnameFargs` succeeds, the names it returns are the typed
arguments split on `,`, every piece replaced by its first word, joined with
`, `. -/
theorem splitFnameFargs_names_are_first_words (isSpace : Byte → Bool)
    (f fname fargs names : Bytes)
    (h : splitFnameFargs isSpace f = .ok (fname, fargs, names)) :
    names = (ascii ", ").intercalate ((fargs.splitOn comma).map (firstWord isSpace)) := by
  rw [splitFnameFargs_names isSpace f fname fargs names h, stringsJoin_eq_intercalate,
    stringsSplit_eq_splitOn]

theorem splitFnameFargs_names_are_first_words_witness :
    splitFnameFargs isSpaceAscii (ascii "Row(id int,  cells []string)")
        = .ok (ascii "Row", ascii "id int,  cells []string", ascii "id, cells")
      ∧ ascii "id, cells" = (ascii ", ").intercalate
          (((ascii "id int,  cells []string").splitOn comma).map (firstWord isSpaceAscii)) :=
  ⟨by decide, splitFnameFargs_names_are_first_words isSpaceAscii
    (ascii "Row(id int,  cells []string)") (ascii "Row") (ascii "id int,  cells []string")
    (ascii "id, cells") (by decide)⟩

/-- C10. Whenever `splitFnameFargs` succeeds, the names it returns have as many
comma-separated pieces as the typed arguments it returns. -/
theorem splitFnameFargs_same_parameter_count (isSpace : Byte → Bool)
    (f fname fargs names : Bytes)
    (h : splitFnameFargs isSpace f = .ok (fname, fargs, names)) :
    (names.splitOn comma).length = (fargs.splitOn comma).length := by
  have hn := splitFnameFargs_names isSpace f fname fargs names h
  rw [← stringsSplit_eq_splitOn, ← stringsSplit_eq_splitOn, length_stringsSplit, hn,
    count_comma_stringsJoin]
  · simp
    have := stringsSplit_ne_nil comma fargs
    have hpos : 0 < (stringsSplit comma fargs).length := List.length_pos.mpr this
    omega
  · simpa using stringsSplit_ne_nil comma fargs
  · intro x hx
    obtain ⟨seg, hseg, rfl⟩ := List.mem_map.mp hx
    intro hmem
    exact not_mem_of_mem_stringsSplit comma fargs seg hseg
      ((firstWord_sublist isSpace seg).subset hmem)

theorem splitFnameFargs_same_parameter_count_witness :
    splitFnameFargs isSpaceAscii (ascii "T(a, b string, c ...int)")
        = .ok (ascii "T", ascii "a, b string, c ...int", ascii "a, b, c")
      ∧ ((ascii "a, b, c").splitOn comma).length
          = ((ascii "a, b string, c ...int").splitOn comma).length :=
  ⟨by decide, splitFnameFargs_same_parameter_count isSpaceAscii
    (ascii "T(a, b string, c ...int)") (ascii "T") (ascii "a, b string, c ...int")
    (ascii "a, b, c") (by decide)⟩

/-! ## The text emitter -/

theorem dropLeading_append (pre l : Bytes) : dropLeading pre (pre ++ l) = some l := by
  simp [dropLeading]

theorem dropTrailing_append (suf l : Bytes) : dropTrailing suf (l ++ suf) = some l := by
  simp [dropTrailing, dropLeading_append]

theorem callValue_raw (r : Bytes) (h : backtick ∉ r) :
    callValue (ascii "w.E.S(`" ++ r ++ ascii "`)\n") = some (dropCR r) := by
  have e1 : ascii "w.E.S(`" ++ r ++ ascii "`)\n"
      = ascii "w.E.S(" ++ (([backtick] ++ (r ++ [backtick])) ++ ascii ")\n") := by
    have a1 : ascii "w.E.S(`" = ascii "w.E.S(" ++ [backtick] := by decide
    have a2 : ascii "`)\n" = [backtick] ++ ascii ")\n" := by decide
    rw [a1, a2]
    simp
  rw [e1]
  unfold callValue
  rw [dropLeading_append]
  simp only [Option.some_bind, dropTrailing_append]
  unfold literalValue
  have hne : [backtick] ++ (r ++ [backtick]) ≠ ascii "\"`\"" := by
    intro hc
    have h1 : ([backtick] ++ (r ++ [backtick])).head? = some backtick := rfl
    rw [hc] at h1
    revert h1
    decide
  rw [if_neg hne, dropLeading_append]
  simp only [Option.some_bind, dropTrailing_append, if_neg h]

theorem callValue_quoted : callValue (ascii "w.E.S(\"`\")\n") = some [backtick] := by
  decide

theorem callValue_rawCall (r : Bytes) (h : backtick ∉ r) :
    callValue (rawCall r) = some (dropCR r) :=
  callValue_raw r h

theorem dropCR_append (a b : Bytes) : dropCR (a ++ b) = dropCR a ++ dropCR b := by
  simp [dropCR]

theorem dropCR_of_not_mem (l : Bytes) (h : cr ∉ l) : dropCR l = l := by
  rw [dropCR, List.filter_eq_self]
  intro b hb
  have hne : b ≠ cr := fun hc => h (hc ▸ hb)
  simpa using hne

theorem rawCall_shape (r : Bytes) : ascii "w.E.S(" <+: rawCall r := by
  have a1 : ascii "w.E.S(`" = ascii "w.E.S(" ++ [backtick] := by decide
  refine ⟨[backtick] ++ r ++ ascii "`)\n", ?_⟩
  rw [rawCall, a1]
  simp

theorem emitTextLoop_nil (fuel : Nat) (w : Sink) : emitTextLoop (fuel + 1) w [] = .ok w := by
  simp [emitTextLoop]

theorem emitTextLoop_plain (fuel : Nat) (w : Sink) (text : Bytes) (hne : text ≠ [])
    (h : backtick ∉ text) :
    emitTextLoop (fuel + 1) w text = .ok (w ++ [rawCall text]) := by
  unfold emitTextLoop
  rw [if_pos (List.length_pos.mpr hne), (indexByte_none _ _).mpr h]
  rfl

theorem emitTextLoop_step (fuel : Nat) (w : Sink) (text : Bytes) (n : Nat)
    (h : indexByte backtick text = some n) :
    emitTextLoop (fuel + 1) w text
      = emitTextLoop fuel (w ++ [rawCall (text.take n), quotedCall]) (text.drop (n + 1)) := by
  obtain ⟨hlt, -, -⟩ := indexByte_some _ _ _ h
  have hpos : text.length > 0 := by omega
  have hw : fprintf (fprintf w (ascii "w.E.S(`" ++ text.take n ++ ascii "`)\n"))
      (ascii "w.E.S(\"`\")\n") = w ++ [rawCall (text.take n), quotedCall] := by
    simp only [fprintf, rawCall, quotedCall, List.append_assoc w, List.singleton_append]
  rw [emitTextLoop, if_pos hpos, h]
  simp only [sliceTo, sliceFrom, if_pos (Nat.le_of_lt hlt), if_pos (Nat.succ_le_of_lt hlt), hw]

theorem emitTextLoop_calls :
    ∀ (fuel : Nat) (text : Bytes), text.length < fuel →
      ∃ calls : List Bytes,
        (∀ w, emitTextLoop fuel w text = .ok (w ++ calls))
          ∧ decodeCalls calls = some (dropCR text)
          ∧ calls.length ≤ 2 * text.count backtick + 1
          ∧ ∀ c ∈ calls, ascii "w.E.S(" <+: c := by
  intro fuel
  induction fuel with
  | zero => intro text h; omega
  | succ fuel ih =>
    intro text hlen
    by_cases hne : text = []
    · subst hne
      exact ⟨[], fun w => by simp [emitTextLoop_nil], rfl, by simp, by simp⟩
    · cases hi : indexByte backtick text with
      | none =>
        have hnot := (indexByte_none _ _).mp hi
        refine ⟨[rawCall text],
          fun w => emitTextLoop_plain fuel w text hne hnot, ?_, by simp, ?_⟩
        · simp [decodeCalls, callValue_rawCall text hnot]
        · intro c hc
          rw [List.mem_singleton] at hc
          subst hc
          exact rawCall_shape text
      | some n =>
        obtain ⟨hlt, hnot, hsplit⟩ := indexByte_some _ _ _ hi
        obtain ⟨calls, hrun, hdec, hcount, hshape⟩ :=
          ih (text.drop (n + 1)) (by rw [List.length_drop]; omega)
        refine ⟨rawCall (text.take n) :: quotedCall :: calls, ?_, ?_, ?_, ?_⟩
        · intro w
          rw [emitTextLoop_step fuel w text n hi, hrun]
          simp
        · simp only [decodeCalls, callValue_rawCall _ hnot, quotedCall, callValue_quoted, hdec]
          have hcat : dropCR (List.take n text) ++ ([backtick] ++ dropCR (List.drop (n + 1) text))
              = dropCR text := by
            have hb : (backtick != cr) = true := by decide
            have h1 := congrArg dropCR hsplit
            rw [h1]
            simp only [dropCR, List.filter_append, List.filter_cons, hb, if_true,
              List.singleton_append]
          exact congrArg some hcat
        · have hc : text.count backtick = (text.drop (n + 1)).count backtick + 1 := by
            conv_lhs => rw [hsplit]
            rw [List.count_append, List.count_cons_self, List.count_eq_zero_of_not_mem hnot]
            omega
          simp only [List.length_cons]
          omega
        · intro c hc
          rcases List.mem_cons.mp hc with h1 | h1
          · subst h1
            exact rawCall_shape _
          · rcases List.mem_cons.mp h1 with h2 | h2
            · subst h2
              exact ⟨ascii "\"`\")\n", by decide⟩
            · exact hshape c h2

theorem emitText_calls (text : Bytes) :
    ∃ calls : List Bytes,
      (∀ w, emitText w text = .ok (w ++ calls))
        ∧ decodeCalls calls = some (dropCR text)
        ∧ calls.length ≤ 2 * text.count backtick + 1
        ∧ ∀ c ∈ calls, ascii "w.E.S(" <+: c :=
  emitTextLoop_calls (text.length + 1) text (Nat.lt_succ_self _)

/-! ## The claims about the text emitter -/

/-- What the emitted calls write at execution time: for every byte sequence
`text`, `emitText` appends a sequence of calls to the sink, and the values their
literal arguments denote, concatenated in order, are `text` without its carriage
returns. -/
theorem emitText_denotes (w : Sink) (text : Bytes) :
    ∃ calls : List Bytes,
      emitText w text = .ok (w ++ calls) ∧ decodeCalls calls = some (dropCR text) := by
  obtain ⟨calls, hrun, hdec, -, -⟩ := emitText_calls text
  exact ⟨calls, hrun w, hdec⟩

/-- The round trip of the text emitter for a text without a carriage return:
the values the emitted calls denote, concatenated in order, are `text` byte for
byte. -/
theorem emitText_denotes_without_cr (w : Sink) (text : Bytes) (h : cr ∉ text) :
    ∃ calls : List Bytes,
      emitText w text = .ok (w ++ calls) ∧ decodeCalls calls = some text := by
  obtain ⟨calls, hrun, hdec⟩ := emitText_denotes w text
  rw [dropCR_of_not_mem text h] at hdec
  exact ⟨calls, hrun, hdec⟩

theorem emitText_denotes_without_cr_witness :
    cr ∉ ascii "a`b\nc" ∧ ∃ calls : List Bytes,
      emitText [] (ascii "a`b\nc") = .ok ([] ++ calls)
        ∧ decodeCalls calls = some (ascii "a`b\nc") :=
  ⟨by decide, emitText_denotes_without_cr [] (ascii "a`b\nc") (by decide)⟩

/-- C1 at the text of `a`, a backtick, a carriage return, a line feed, `b` and
a carriage return: `emitText` writes the carriage returns inside raw literals,
where Go discards them, so the emitted calls write `a`, a backtick, a line feed
and `b` at execution time, not the text. -/
theorem emitText_carriage_return_lost :
    emitText [] (ascii "a`\r\nb\r")
        = .ok [ascii "w.E.S(`a`)\n", ascii "w.E.S(\"`\")\n", ascii "w.E.S(`\r\nb\r`)\n"]
      ∧ decodeCalls [ascii "w.E.S(`a`)\n", ascii "w.E.S(\"`\")\n", ascii "w.E.S(`\r\nb\r`)\n"]
        = some (ascii "a`\nb")
      ∧ ascii "a`\nb" ≠ ascii "a`\r\nb\r" := by
  decide

/-- C7 fails at the empty text: it holds no backtick, and `emitText` writes no
call for it, not the one call that wraps it. -/
theorem emitText_empty_writes_nothing :
    backtick ∉ ([] : Bytes) ∧ emitText [] [] = .ok []
      ∧ emitText [] [] ≠ .ok [ascii "w.E.S(`" ++ [] ++ ascii "`)\n"] := by
  decide

/-- C7, amended. For every text that is not empty and holds no backtick,
`emitText` appends exactly one call to the sink, the line that wraps the text
unmodified in a raw literal. -/
theorem emitText_without_delimiter (w : Sink) (text : Bytes) (hne : text ≠ [])
    (h : backtick ∉ text) :
    emitText w text = .ok (w ++ [ascii "w.E.S(`" ++ text ++ ascii "`)\n"]) :=
  emitTextLoop_plain text.length w text hne h

theorem emitText_without_delimiter_witness :
    ascii "<b>hello</b>" ≠ [] ∧ backtick ∉ ascii "<b>hello</b>"
      ∧ emitText [] (ascii "<b>hello</b>")
          = .ok ([] ++ [ascii "w.E.S(`" ++ ascii "<b>hello</b>" ++ ascii "`)\n"]) :=
  ⟨by decide, by decide,
    emitText_without_delimiter [] (ascii "<b>hello</b>") (by decide) (by decide)⟩

/-- C8. For every text with `n` backticks, `emitText` appends at most `2n+1`
chunks to the sink, each of them a `w.E.S` call. -/
theorem emitText_call_count (w : Sink) (text : Bytes) :
    ∃ calls : List Bytes,
      emitText w text = .ok (w ++ calls)
        ∧ (∀ c ∈ calls, ascii "w.E.S(" <+: c)
        ∧ calls.length ≤ 2 * text.count backtick + 1 := by
  obtain ⟨calls, hrun, -, hcount, hshape⟩ := emitText_calls text
  exact ⟨calls, hrun w, hshape, hcount⟩

/-! ## The function block parser and the template driver -/

theorem emitText_eq_emission (w : Sink) (v : Bytes) :
    emitText w v = .ok (w ++ (BodyItem.text v).emission) := by
  obtain ⟨calls, hrun, -⟩ := emitText_calls v
  have h0 := hrun []
  simp only [BodyItem.emission, h0, List.nil_append]
  exact hrun w

theorem parseFuncLoop_item (fn fa fnt : Bytes) (fuel : Nat) (item : BodyItem)
    (rest : List Token) (tok : Token) (err : Bool) (w : Sink) :
    ∃ tok1, parseFuncLoop fn fa fnt (fuel + 1) ⟨item.tokens ++ rest, tok, err⟩ w
      = parseFuncLoop fn fa fnt fuel ⟨rest, tok1, err⟩ (w ++ item.emission) := by
  cases item with
  | text v =>
    refine ⟨⟨TokenID.Text, v⟩, ?_⟩
    rw [parseFuncLoop]
    simp only [BodyItem.tokens, List.singleton_append, Scanner.Next, Scanner.Token,
      emitText_eq_emission w v]
  | s c =>
    refine ⟨⟨TokenID.TagContents, c⟩, ?_⟩
    rw [parseFuncLoop]
    simp only [BodyItem.tokens, Scanner.Next, Scanner.Token, List.cons_append, List.nil_append,
      if_neg (show ascii "s" ≠ ascii "endfunc" by decide), if_true]
    simp [parseS, expectTagContents, expectToken, Scanner.Next, Scanner.Token, BodyItem.emission,
      Scanner.start, Outcome.sink, fprintf]
  | d c =>
    refine ⟨⟨TokenID.TagContents, c⟩, ?_⟩
    rw [parseFuncLoop]
    simp only [BodyItem.tokens, Scanner.Next, Scanner.Token, List.cons_append, List.nil_append,
      if_neg (show ascii "d" ≠ ascii "endfunc" by decide),
      if_neg (show ascii "d" ≠ ascii "s" by decide), if_true]
    simp [parseD, expectTagContents, expectToken, Scanner.Next, Scanner.Token, BodyItem.emission,
      Scanner.start, Outcome.sink, fprintf]
  | f c =>
    refine ⟨⟨TokenID.TagContents, c⟩, ?_⟩
    rw [parseFuncLoop]
    simp only [BodyItem.tokens, Scanner.Next, Scanner.Token, List.cons_append, List.nil_append,
      if_neg (show ascii "f" ≠ ascii "endfunc" by decide),
      if_neg (show ascii "f" ≠ ascii "s" by decide),
      if_neg (show ascii "f" ≠ ascii "d" by decide), if_true]
    simp [parseF, expectTagContents, expectToken, Scanner.Next, Scanner.Token, BodyItem.emission,
      Scanner.start, Outcome.sink, fprintf]
  | code c =>
    refine ⟨⟨TokenID.TagContents, c⟩, ?_⟩
    rw [parseFuncLoop]
    simp only [BodyItem.tokens, Scanner.Next, Scanner.Token, List.cons_append, List.nil_append,
      if_neg (show ascii "code" ≠ ascii "endfunc" by decide),
      if_neg (show ascii "code" ≠ ascii "s" by decide),
      if_neg (show ascii "code" ≠ ascii "d" by decide),
      if_neg (show ascii "code" ≠ ascii "f" by decide), if_true]
    simp [parseCode, expectTagContents, expectToken, Scanner.Next, Scanner.Token,
      BodyItem.emission, Scanner.start, Outcome.sink, fprintf]

theorem parseFuncLoop_items (fn fa fnt : Bytes) (items : List BodyItem) :
    ∀ (fuel : Nat) (rest : List Token) (tok : Token) (err : Bool) (w : Sink),
      ∃ tok1, parseFuncLoop fn fa fnt (fuel + items.length) ⟨bodyTokens items ++ rest, tok, err⟩ w
        = parseFuncLoop fn fa fnt fuel ⟨rest, tok1, err⟩ (w ++ bodyEmission items) := by
  induction items with
  | nil =>
    intro fuel rest tok err w
    exact ⟨tok, by simp [bodyTokens, bodyEmission]⟩
  | cons item items ih =>
    intro fuel rest tok err w
    obtain ⟨tok1, h1⟩ := parseFuncLoop_item fn fa fnt (fuel + items.length) item
      (bodyTokens items ++ rest) tok err w
    obtain ⟨tok2, h2⟩ := ih fuel rest tok1 err (w ++ item.emission)
    refine ⟨tok2, ?_⟩
    have e1 : bodyTokens (item :: items) ++ rest = item.tokens ++ (bodyTokens items ++ rest) := by
      simp [bodyTokens]
    have e2 : fuel + (item :: items).length = fuel + items.length + 1 := by
      simp only [List.length_cons]; omega
    have e3 : w ++ bodyEmission (item :: items) = w ++ item.emission ++ bodyEmission items := by
      simp [bodyEmission]
    rw [e1, e2, e3, h1, h2]

theorem length_le_length_bodyTokens (items : List BodyItem) :
    items.length ≤ (bodyTokens items).length := by
  induction items with
  | nil => simp
  | cons item items ih =>
    have h : 1 ≤ item.tokens.length := by cases item <;> simp [BodyItem.tokens]
    simp only [bodyTokens, List.map_cons, List.flatten_cons, List.length_append,
      List.length_cons] at ih ⊢
    omega

theorem parseFuncLoop_endfunc (fn fa fnt : Bytes) (fuel : Nat) (c : Bytes) (rest : List Token)
    (tok : Token) (err : Bool) (w : Sink) :
    parseFuncLoop fn fa fnt (fuel + 1) ⟨tagName "endfunc" :: tagContents c :: rest, tok, err⟩ w
      = .done ⟨rest, tagContents c, err⟩ (emitFuncEnd w fn fa fnt) := by
  rw [parseFuncLoop]
  simp [tagName, tagContents, Scanner.Next, Scanner.Token, expectTagContents, expectToken]

theorem parseFuncLoop_exhausted (fn fa fnt : Bytes) (fuel : Nat) (tok : Token) (err : Bool)
    (w : Sink) :
    parseFuncLoop fn fa fnt (fuel + 1) ⟨[], tok, err⟩ w
      = if err then .aborted .cannotParseFunc w else .done ⟨[], tok, err⟩ w := by
  rw [parseFuncLoop]
  simp [Scanner.Next, Scanner.LastError]

theorem parseFunc_complete (isSpace : Byte → Bool) (sig name args names : Bytes)
    (items : List BodyItem) (c : Bytes) (rest : List Token) (tok : Token) (err : Bool) (w : Sink)
    (h : splitFnameFargs isSpace sig = .ok (name, args, names)) :
    parseFunc isSpace
        ⟨tagContents sig :: (bodyTokens items ++ tagName "endfunc" :: tagContents c :: rest),
          tok, err⟩ w
      = .done ⟨rest, tagContents c, err⟩
          (emitFuncEnd (emitFuncStart w name args ++ bodyEmission items) name args names) := by
  unfold parseFunc
  simp only [expectTagContents, expectToken, Scanner.Next, Scanner.Token, tagContents,
    ne_eq, not_true_eq_false, if_false, h]
  have hlen := length_le_length_bodyTokens items
  obtain ⟨k, hk⟩ : ∃ k, (bodyTokens items ++
      tagName "endfunc" :: ({ ID := TokenID.TagContents, Value := c } : Token) :: rest).length + 1
        = k + 1 + items.length := by
    refine ⟨(bodyTokens items).length - items.length + rest.length + 2, ?_⟩
    simp only [List.length_append, List.length_cons]
    omega
  rw [hk]
  obtain ⟨tok1, h1⟩ := parseFuncLoop_items name args names items (k + 1)
    (tagName "endfunc" :: tagContents c :: rest) (tagContents sig) err (emitFuncStart w name args)
  simp only [tagContents] at h1
  rw [h1]
  exact parseFuncLoop_endfunc name args names k c rest tok1 err _

theorem parseFunc_unterminated (isSpace : Byte → Bool) (sig name args names : Bytes)
    (items : List BodyItem) (tok : Token) (err : Bool) (w : Sink)
    (h : splitFnameFargs isSpace sig = .ok (name, args, names)) :
    ∃ tok1, parseFunc isSpace ⟨tagContents sig :: bodyTokens items, tok, err⟩ w
      = if err then .aborted .cannotParseFunc (emitFuncStart w name args ++ bodyEmission items)
        else .done ⟨[], tok1, err⟩ (emitFuncStart w name args ++ bodyEmission items) := by
  unfold parseFunc
  simp only [expectTagContents, expectToken, Scanner.Next, Scanner.Token, tagContents,
    ne_eq, not_true_eq_false, if_false, h]
  have hlen := length_le_length_bodyTokens items
  obtain ⟨k, hk⟩ : ∃ k, (bodyTokens items).length + 1 = k + 1 + items.length :=
    ⟨(bodyTokens items).length - items.length, by omega⟩
  rw [hk]
  obtain ⟨tok1, h1⟩ := parseFuncLoop_items name args names items (k + 1)
    [] (tagContents sig) err (emitFuncStart w name args)
  simp only [tagContents, List.append_nil] at h1
  rw [h1]
  exact ⟨tok1, parseFuncLoop_exhausted name args names k tok1 err _⟩

theorem parseTemplateLoop_func (isSpace : Byte → Bool) (fuel : Nat) (rest : List Token)
    (tok : Token) (err : Bool) (w : Sink) :
    parseTemplateLoop isSpace (fuel + 1) ⟨tagName "func" :: rest, tok, err⟩ w
      = match parseFunc isSpace ⟨rest, tagName "func", err⟩ w with
        | .aborted e w1 => .aborted e w1
        | .done s2 w1 => parseTemplateLoop isSpace fuel s2 w1 := by
  rw [parseTemplateLoop]
  simp only [tagName, Scanner.Next, Scanner.Token,
    if_neg (show ascii "func" ≠ ascii "code" by decide), if_true]

theorem parseTemplateLoop_exhausted (isSpace : Byte → Bool) (fuel : Nat) (tok : Token)
    (err : Bool) (w : Sink) :
    parseTemplateLoop isSpace (fuel + 1) ⟨[], tok, err⟩ w
      = if err then .aborted .cannotParseTemplate w else .done ⟨[], tok, err⟩ w := by
  rw [parseTemplateLoop]
  simp [Scanner.Next, Scanner.LastError]

/-- The translation of a complete function block: the header of the streaming
routine, the emissions of the body items, the two closing writes; a trailing
source error is reported after them. -/
theorem translate_funcBlock (isSpace : Byte → Bool) (sig name args names : Bytes)
    (items : List BodyItem) (c : Bytes) (err : Bool)
    (h : splitFnameFargs isSpace sig = .ok (name, args, names)) :
    translate isSpace (funcBlock sig items c) err
      = if err then
          .aborted .cannotParseTemplate
            (emitFuncEnd (emitFuncStart [] name args ++ bodyEmission items) name args names)
        else
          .done ⟨[], tagContents c, err⟩
            (emitFuncEnd (emitFuncStart [] name args ++ bodyEmission items) name args names) := by
  unfold translate parseTemplate Scanner.start funcBlock openBlock
  simp only [List.cons_append, List.length_cons]
  rw [parseTemplateLoop_func, parseFunc_complete isSpace sig name args names items c [] _ err _ h]
  simp only [List.length_append, List.length_cons, List.length_nil]
  exact parseTemplateLoop_exhausted isSpace _ _ err _

/-- The translation of a function block without its `endfunc`: the header and
the emissions of the body items are written; the run ends with an error exactly
when the token source ends with one. -/
theorem translate_openBlock (isSpace : Byte → Bool) (sig name args names : Bytes)
    (items : List BodyItem) (err : Bool)
    (h : splitFnameFargs isSpace sig = .ok (name, args, names)) :
    ∃ tok1, translate isSpace (openBlock sig items) err
      = if err then .aborted .cannotParseFunc (emitFuncStart [] name args ++ bodyEmission items)
        else .done ⟨[], tok1, err⟩ (emitFuncStart [] name args ++ bodyEmission items) := by
  unfold translate parseTemplate Scanner.start openBlock
  simp only [List.length_cons]
  rw [parseTemplateLoop_func]
  obtain ⟨tok1, h1⟩ := parseFunc_unterminated isSpace sig name args names items
    (tagName "func") err [] h
  refine ⟨tok1, ?_⟩
  rw [h1]
  cases err with
  | true => simp
  | false =>
    simp only [Bool.false_eq_true, if_false]
    exact parseTemplateLoop_exhausted isSpace _ _ false _

theorem emission_line (item : BodyItem) (h : item.plain = true) :
    ∃ line, item.emission = [line] ∧ ascii "\n" <:+ line := by
  cases item with
  | text v =>
    obtain ⟨hne, hb⟩ : v ≠ [] ∧ backtick ∉ v := by simpa [BodyItem.plain] using h
    refine ⟨rawCall v, ?_, ⟨ascii "w.E.S(`" ++ v ++ [backtick, rparen], ?_⟩⟩
    · have h0 := emitTextLoop_plain v.length [] v hne hb
      simp only [BodyItem.emission, emitText, h0, List.nil_append]
    · have a2 : ascii "`)\n" = [backtick, rparen] ++ ascii "\n" := by decide
      rw [rawCall, a2]
      simp
  | s c =>
    refine ⟨ascii "w.E.S(" ++ c ++ ascii ")\n", ?_, ⟨ascii "w.E.S(" ++ c ++ [rparen], ?_⟩⟩
    · simp [BodyItem.emission, parseS, expectTagContents, expectToken, Scanner.Next,
        Scanner.Token, Scanner.start, Outcome.sink, fprintf]
    · have a2 : ascii ")\n" = [rparen] ++ ascii "\n" := by decide
      rw [a2]
      simp
  | d c =>
    refine ⟨ascii "w.D(" ++ c ++ ascii ")\n", ?_, ⟨ascii "w.D(" ++ c ++ [rparen], ?_⟩⟩
    · simp [BodyItem.emission, parseD, expectTagContents, expectToken, Scanner.Next,
        Scanner.Token, Scanner.start, Outcome.sink, fprintf]
    · have a2 : ascii ")\n" = [rparen] ++ ascii "\n" := by decide
      rw [a2]
      simp
  | f c =>
    refine ⟨ascii "w.F(" ++ c ++ ascii ")\n", ?_, ⟨ascii "w.F(" ++ c ++ [rparen], ?_⟩⟩
    · simp [BodyItem.emission, parseF, expectTagContents, expectToken, Scanner.Next,
        Scanner.Token, Scanner.start, Outcome.sink, fprintf]
    · have a2 : ascii ")\n" = [rparen] ++ ascii "\n" := by decide
      rw [a2]
      simp
  | code c =>
    refine ⟨c ++ ascii "\n", ?_, ⟨c, rfl⟩⟩
    simp [BodyItem.emission, parseCode, expectTagContents, expectToken, Scanner.Next,
      Scanner.Token, Scanner.start, Outcome.sink, fprintf]

theorem bodyEmission_lines (items : List BodyItem) (h : ∀ item ∈ items, item.plain = true) :
    ∃ body : List Bytes,
      bodyEmission items = body
        ∧ List.Forall₂ (fun item line => item.emission = [line]) items body
        ∧ ∀ line ∈ body, ascii "\n" <:+ line := by
  induction items with
  | nil => exact ⟨[], rfl, List.Forall₂.nil, by simp⟩
  | cons item items ih =>
    obtain ⟨body, hb, hf, hl⟩ := ih (fun i hi => h i (List.mem_cons_of_mem _ hi))
    obtain ⟨line, he, hs⟩ := emission_line item (h item (List.mem_cons_self _ _))
    refine ⟨line :: body, ?_, List.Forall₂.cons he hf, ?_⟩
    · rw [← hb]
      simp [bodyEmission, he]
    · intro l hmem
      rcases List.mem_cons.mp hmem with h1 | h1
      · subst h1; exact hs
      · exact hl l h1

/-! ## Fuel: the loops of the embedding never run out of it -/

theorem expectToken_cases (s : Scanner) (id : TokenID) :
    (expectToken s id = .error .cannotFindToken ∧ s.input = [])
      ∨ (∃ t rest, s.input = t :: rest ∧ t.ID ≠ id
          ∧ expectToken s id = .error .unexpectedTokenFound)
      ∨ (∃ t rest, s.input = t :: rest ∧ t.ID = id
          ∧ expectToken s id = .ok (t, ⟨rest, t, s.err⟩)) := by
  cases hi : s.input with
  | nil => exact Or.inl ⟨by simp [expectToken, Scanner.Next, hi], rfl⟩
  | cons t rest =>
    by_cases ht : t.ID = id
    · exact Or.inr (Or.inr ⟨t, rest, rfl, ht, by simp [expectToken, Scanner.Next, Scanner.Token, hi, ht]⟩)
    · exact Or.inr (Or.inl ⟨t, rest, rfl, ht, by simp [expectToken, Scanner.Next, Scanner.Token, hi, ht]⟩)

theorem parseS_sound (s : Scanner) (w : Sink) (n : Nat) (h : s.input.length ≤ n + 1) :
    (parseS s w).Sound n := by
  unfold parseS expectTagContents
  rcases expectToken_cases s TokenID.TagContents with ⟨h1, -⟩ | ⟨t, rest, hi, -, h1⟩ | ⟨t, rest, hi, -, h1⟩
  · rw [h1]; simp [Outcome.Sound]
  · rw [h1]; simp [Outcome.Sound]
  · rw [h1]
    simp only [Outcome.Sound]
    rw [hi] at h
    simpa using h

theorem parseD_sound (s : Scanner) (w : Sink) (n : Nat) (h : s.input.length ≤ n + 1) :
    (parseD s w).Sound n := by
  unfold parseD expectTagContents
  rcases expectToken_cases s TokenID.TagContents with ⟨h1, -⟩ | ⟨t, rest, hi, -, h1⟩ | ⟨t, rest, hi, -, h1⟩
  · rw [h1]; simp [Outcome.Sound]
  · rw [h1]; simp [Outcome.Sound]
  · rw [h1]
    simp only [Outcome.Sound]
    rw [hi] at h
    simpa using h

theorem parseF_sound (s : Scanner) (w : Sink) (n : Nat) (h : s.input.length ≤ n + 1) :
    (parseF s w).Sound n := by
  unfold parseF expectTagContents
  rcases expectToken_cases s TokenID.TagContents with ⟨h1, -⟩ | ⟨t, rest, hi, -, h1⟩ | ⟨t, rest, hi, -, h1⟩
  · rw [h1]; simp [Outcome.Sound]
  · rw [h1]; simp [Outcome.Sound]
  · rw [h1]
    simp only [Outcome.Sound]
    rw [hi] at h
    simpa using h

theorem parseCode_sound (s : Scanner) (w : Sink) (n : Nat) (h : s.input.length ≤ n + 1) :
    (parseCode s w).Sound n := by
  unfold parseCode expectTagContents
  rcases expectToken_cases s TokenID.TagContents with ⟨h1, -⟩ | ⟨t, rest, hi, -, h1⟩ | ⟨t, rest, hi, -, h1⟩
  · rw [h1]; simp [Outcome.Sound]
  · rw [h1]; simp [Outcome.Sound]
  · rw [h1]
    simp only [Outcome.Sound]
    rw [hi] at h
    simpa using h

theorem Outcome.Sound.mono {n m : Nat} {o : Outcome} (h : o.Sound n) (hnm : n ≤ m) :
    o.Sound m := by
  cases o with
  | aborted e w => exact h
  | done s w => exact Nat.le_trans h hnm

/-- A step of a loop: run an emitter, then go on with the loop on what is
left. -/
theorem sound_then (o : Outcome) (n : Nat) (k : Scanner → Sink → Outcome) :
    o.Sound n → (∀ s w, s.input.length ≤ n → (k s w).Sound n) →
      (match o with
        | .aborted e w1 => Outcome.aborted e w1
        | .done s2 w1 => k s2 w1).Sound n := by
  intro ho hk
  cases o with
  | aborted e w => exact ho
  | done s w => exact hk s w ho

theorem parseFuncLoop_sound (fn fa fnt : Bytes) :
    ∀ (fuel : Nat) (s : Scanner) (w : Sink), s.input.length < fuel →
      (parseFuncLoop fn fa fnt fuel s w).Sound s.input.length := by
  intro fuel
  induction fuel with
  | zero => intro s w h; omega
  | succ fuel ih =>
    intro s w hfuel
    obtain ⟨input, tok, err⟩ := s
    cases input with
    | nil =>
      rw [parseFuncLoop]
      cases err <;> simp [Scanner.Next, Scanner.LastError, Outcome.Sound]
    | cons t rest =>
      have hrest : rest.length < fuel := by simpa using hfuel
      have hgo : ∀ s w, s.input.length ≤ rest.length →
          (parseFuncLoop fn fa fnt fuel s w).Sound rest.length := fun s w hs =>
        (ih s w (by omega)).mono hs
      rw [parseFuncLoop]
      simp only [Scanner.Next, Scanner.Token, List.length_cons]
      apply Outcome.Sound.mono _ (Nat.le_succ _)
      obtain ⟨id, v⟩ := t
      cases id with
      | Text =>
        simp only [emitText_eq_emission]
        exact hgo _ _ (Nat.le_refl _)
      | TagName =>
        simp only
        split
        · unfold expectTagContents
          rcases expectToken_cases ⟨rest, ⟨TokenID.TagName, v⟩, err⟩ TokenID.TagContents with
            ⟨h1, -⟩ | ⟨t, r, hi, -, h1⟩ | ⟨t, r, hi, -, h1⟩
          · rw [h1]; simp [Outcome.Sound]
          · rw [h1]; simp [Outcome.Sound]
          · rw [h1]
            simp only [Outcome.Sound]
            simp only at hi
            rw [hi]
            simp
        · split
          · cases rest with
            | nil => simp [parseS, expectTagContents, expectToken, Scanner.Next, Outcome.Sound]
            | cons c r =>
              have hs := parseS_sound ⟨c :: r, ⟨TokenID.TagName, v⟩, err⟩ w r.length (by simp)
              exact (sound_then _ _ _ hs (fun s w h => (ih s w (by simp at hrest; omega)).mono h)).mono
                (by simp)
          · split
            · cases rest with
              | nil => simp [parseD, expectTagContents, expectToken, Scanner.Next, Outcome.Sound]
              | cons c r =>
                have hs := parseD_sound ⟨c :: r, ⟨TokenID.TagName, v⟩, err⟩ w r.length (by simp)
                exact (sound_then _ _ _ hs (fun s w h => (ih s w (by simp at hrest; omega)).mono h)).mono
                  (by simp)
            · split
              · cases rest with
                | nil => simp [parseF, expectTagContents, expectToken, Scanner.Next, Outcome.Sound]
                | cons c r =>
                  have hs := parseF_sound ⟨c :: r, ⟨TokenID.TagName, v⟩, err⟩ w r.length (by simp)
                  exact (sound_then _ _ _ hs (fun s w h => (ih s w (by simp at hrest; omega)).mono h)).mono
                    (by simp)
              · split
                · cases rest with
                  | nil =>
                    simp [parseCode, expectTagContents, expectToken, Scanner.Next, Outcome.Sound]
                  | cons c r =>
                    have hs := parseCode_sound ⟨c :: r, ⟨TokenID.TagName, v⟩, err⟩ w r.length
                      (by simp)
                    exact (sound_then _ _ _ hs
                      (fun s w h => (ih s w (by simp at hrest; omega)).mono h)).mono (by simp)
                · simp [Outcome.Sound]
      | TagContents => simp [Outcome.Sound]
      | other k => simp [Outcome.Sound]

theorem then_congr (o : Outcome) (n : Nat) (k1 k2 : Scanner → Sink → Outcome) :
    o.Sound n → (∀ s w, s.input.length ≤ n → k1 s w = k2 s w) →
      (match o with
        | .aborted e w1 => Outcome.aborted e w1
        | .done s2 w1 => k1 s2 w1)
        = (match o with
          | .aborted e w1 => Outcome.aborted e w1
          | .done s2 w1 => k2 s2 w1) := by
  intro ho hk
  cases o with
  | aborted e w => rfl
  | done s w => exact hk s w ho

theorem tagEmitter_sound_cons (c : Token) (r : List Token) (tok : Token) (err : Bool) (w : Sink) :
    (parseS ⟨c :: r, tok, err⟩ w).Sound r.length ∧ (parseD ⟨c :: r, tok, err⟩ w).Sound r.length
      ∧ (parseF ⟨c :: r, tok, err⟩ w).Sound r.length
      ∧ (parseCode ⟨c :: r, tok, err⟩ w).Sound r.length :=
  ⟨parseS_sound _ w r.length (by simp), parseD_sound _ w r.length (by simp),
    parseF_sound _ w r.length (by simp), parseCode_sound _ w r.length (by simp)⟩

/-- The result of the loop of `parseFunc` does not depend on the fuel, once
there is more fuel than tokens left. -/
theorem parseFuncLoop_fuel (fn fa fnt : Bytes) :
    ∀ (fuel1 fuel2 : Nat) (s : Scanner) (w : Sink),
      s.input.length < fuel1 → s.input.length < fuel2 →
        parseFuncLoop fn fa fnt fuel1 s w = parseFuncLoop fn fa fnt fuel2 s w := by
  intro fuel1
  induction fuel1 with
  | zero => intro fuel2 s w h; omega
  | succ fuel1 ih =>
    intro fuel2 s w h1 h2
    cases fuel2 with
    | zero => omega
    | succ fuel2 =>
      obtain ⟨input, tok, err⟩ := s
      cases input with
      | nil =>
        rw [parseFuncLoop, parseFuncLoop]
        simp [Scanner.Next]
      | cons t rest =>
        have hr1 : rest.length < fuel1 := by simpa using h1
        have hr2 : rest.length < fuel2 := by simpa using h2
        rw [parseFuncLoop, parseFuncLoop]
        simp only [Scanner.Next, Scanner.Token]
        obtain ⟨id, v⟩ := t
        cases id with
        | Text =>
          simp only [emitText_eq_emission]
          exact ih fuel2 _ _ hr1 hr2
        | TagName =>
          simp only
          cases rest with
          | nil =>
            simp [parseS, parseD, parseF, parseCode, expectTagContents, expectToken, Scanner.Next]
          | cons c r =>
            obtain ⟨hS, hD, hF, hC⟩ := tagEmitter_sound_cons c r ⟨TokenID.TagName, v⟩ err w
            have hk : ∀ s w, s.input.length ≤ r.length →
                parseFuncLoop fn fa fnt fuel1 s w = parseFuncLoop fn fa fnt fuel2 s w :=
              fun s w hs => ih fuel2 s w (by simp at hr1; omega) (by simp at hr2; omega)
            rw [then_congr _ _ _ _ hS hk, then_congr _ _ _ _ hD hk, then_congr _ _ _ _ hF hk,
              then_congr _ _ _ _ hC hk]
        | TagContents => rfl
        | other k => rfl

theorem parseFunc_sound (isSpace : Byte → Bool) (s : Scanner) (w : Sink) (n : Nat)
    (h : s.input.length ≤ n + 1) : (parseFunc isSpace s w).Sound n := by
  unfold parseFunc expectTagContents
  rcases expectToken_cases s TokenID.TagContents with ⟨h1, -⟩ | ⟨t, rest, hi, -, h1⟩ | ⟨t, rest, hi, -, h1⟩
  · rw [h1]; simp [Outcome.Sound]
  · rw [h1]; simp [Outcome.Sound]
  · rw [h1]
    simp only
    cases hsp : splitFnameFargs isSpace t.Value with
    | error e =>
      simp only [Outcome.Sound]
      rcases splitFnameFargs_error isSpace _ e hsp with h2 | h2 <;> subst h2 <;> simp
    | ok r =>
      obtain ⟨fname, fargs, names⟩ := r
      simp only
      have := parseFuncLoop_sound fname fargs names (rest.length + 1) ⟨rest, t, s.err⟩
        (emitFuncStart w fname fargs) (Nat.lt_succ_self _)
      refine this.mono ?_
      rw [hi] at h
      simpa using h

theorem parseTemplateLoop_sound (isSpace : Byte → Bool) :
    ∀ (fuel : Nat) (s : Scanner) (w : Sink), s.input.length < fuel →
      (parseTemplateLoop isSpace fuel s w).Sound s.input.length := by
  intro fuel
  induction fuel with
  | zero => intro s w h; omega
  | succ fuel ih =>
    intro s w hfuel
    obtain ⟨input, tok, err⟩ := s
    cases input with
    | nil =>
      rw [parseTemplateLoop]
      cases err <;> simp [Scanner.Next, Scanner.LastError, Outcome.Sound]
    | cons t rest =>
      have hrest : rest.length < fuel := by simpa using hfuel
      rw [parseTemplateLoop]
      simp only [Scanner.Next, Scanner.Token, List.length_cons]
      apply Outcome.Sound.mono _ (Nat.le_succ _)
      obtain ⟨id, v⟩ := t
      cases id with
      | Text => exact ih _ _ hrest
      | TagName =>
        simp only
        cases rest with
        | nil =>
          simp [parseFunc, parseCode, expectTagContents, expectToken, Scanner.Next]
          split
          · simp [Outcome.Sound]
          · split <;> simp [Outcome.Sound]
        | cons c r =>
          have hk : ∀ s w, s.input.length ≤ r.length →
              (parseTemplateLoop isSpace fuel s w).Sound r.length :=
            fun s w hs => (ih s w (by simp at hrest; omega)).mono hs
          split
          · exact (sound_then _ _ _ (parseCode_sound _ w r.length (by simp)) hk).mono (by simp)
          · split
            · exact (sound_then _ _ _ (parseFunc_sound isSpace _ w r.length (by simp)) hk).mono
                (by simp)
            · simp [Outcome.Sound]
      | TagContents => simp [Outcome.Sound]
      | other k => simp [Outcome.Sound]

/-- The result of the loop of `parseTemplate` does not depend on the fuel, once
there is more fuel than tokens left. -/
theorem parseTemplateLoop_fuel (isSpace : Byte → Bool) :
    ∀ (fuel1 fuel2 : Nat) (s : Scanner) (w : Sink),
      s.input.length < fuel1 → s.input.length < fuel2 →
        parseTemplateLoop isSpace fuel1 s w = parseTemplateLoop isSpace fuel2 s w := by
  intro fuel1
  induction fuel1 with
  | zero => intro fuel2 s w h; omega
  | succ fuel1 ih =>
    intro fuel2 s w h1 h2
    cases fuel2 with
    | zero => omega
    | succ fuel2 =>
      obtain ⟨input, tok, err⟩ := s
      cases input with
      | nil =>
        rw [parseTemplateLoop, parseTemplateLoop]
        simp [Scanner.Next]
      | cons t rest =>
        have hr1 : rest.length < fuel1 := by simpa using h1
        have hr2 : rest.length < fuel2 := by simpa using h2
        rw [parseTemplateLoop, parseTemplateLoop]
        simp only [Scanner.Next, Scanner.Token]
        obtain ⟨id, v⟩ := t
        cases id with
        | Text => exact ih fuel2 _ _ hr1 hr2
        | TagName =>
          simp only
          cases rest with
          | nil =>
            simp [parseFunc, parseCode, expectTagContents, expectToken, Scanner.Next]
          | cons c r =>
            have hk : ∀ s w, s.input.length ≤ r.length →
                parseTemplateLoop isSpace fuel1 s w = parseTemplateLoop isSpace fuel2 s w :=
              fun s w hs => ih fuel2 s w (by simp at hr1; omega) (by simp at hr2; omega)
            rw [then_congr _ _ _ _ (parseCode_sound _ w r.length (by simp)) hk,
              then_congr _ _ _ _ (parseFunc_sound isSpace _ w r.length (by simp)) hk]
        | TagContents => rfl
        | other k => rfl

/-- The translation of every token sequence ends at a `log.Fatalf` call of the
source or returns: the embedding never runs out of fuel and no slice or index
of the code is out of range. -/
theorem translate_sound (isSpace : Byte → Bool) (input : List Token) (err : Bool) :
    (translate isSpace input err).Sound input.length :=
  parseTemplateLoop_sound isSpace (input.length + 1) (Scanner.start input err) []
    (Nat.lt_succ_self _)

/-! ## The claims about function blocks -/

/-- C3 at the block `func Page()` with no body, no `endfunc` and no source
error: the translation does not abort; it returns with the header of the
streaming routine written and the routine left open. -/
theorem translate_unterminated_block_returns :
    translate isSpaceAscii [tagName "func", tagContents (ascii "Page()")] false
      = .done ⟨[], tagContents (ascii "Page()"), false⟩
          [ascii "\nfunc PageStream(w *quicktemplate.Writer, ) \x7b\n"] := by
  decide

/-- C5. The output of a function block: for the tokens `func`, a signature that
splits into `(name, args, names)`, valid body items, `endfunc` and its
contents, the text written to the sink is the header of the streaming routine
`<name>Stream` with the typed arguments after the writer, the emissions of the
body items in order, the closing brace, and the convenience routine `<name>`
that forwards the names; the run returns unless the token source ends with an
error, which is reported after the text is written. -/
theorem funcBlock_output_shape (isSpace : Byte → Bool) (sig name args names : Bytes)
    (items : List BodyItem) (c : Bytes) (err : Bool)
    (h : splitFnameFargs isSpace sig = .ok (name, args, names)) :
    ∃ w : Sink,
      translate isSpace (funcBlock sig items c) err
          = (if err then .aborted .cannotParseTemplate w else .done ⟨[], tagContents c, err⟩ w)
        ∧ w.text = ascii "\nfunc " ++ name ++ ascii "Stream(w *quicktemplate.Writer, " ++ args
            ++ ascii ") \x7b\n" ++ (bodyEmission items).flatten ++ ascii "\x7d\n\n"
            ++ ascii "func " ++ name ++ ascii "(" ++ args
            ++ ascii ") string \x7b\n\tw := quicktemplate.AcquireWriter()\n\t" ++ name
            ++ ascii "Stream(w, " ++ names
            ++ ascii ")\n\ts := w.String()\n\tquicktemplate.ReleaseWriter(w)\n\treturn s\n\x7d" := by
  refine ⟨_, translate_funcBlock isSpace sig name args names items c err h, ?_⟩
  simp [Sink.text, emitFuncEnd, emitFuncStart, fprintf]

theorem funcBlock_output_shape_witness :
    splitFnameFargs isSpaceAscii (ascii "Page(title string)")
        = .ok (ascii "Page", ascii "title string", ascii "title")
      ∧ ∃ w : Sink,
        translate isSpaceAscii (funcBlock (ascii "Page(title string)")
            [BodyItem.text (ascii "Hello, "), BodyItem.s (ascii "title")] []) false
          = (if false = true then Outcome.aborted Abort.cannotParseTemplate w
              else Outcome.done ⟨[], tagContents [], false⟩ w)
        ∧ w.text = ascii "\nfunc " ++ ascii "Page" ++ ascii "Stream(w *quicktemplate.Writer, "
            ++ ascii "title string" ++ ascii ") \x7b\n"
            ++ (bodyEmission [BodyItem.text (ascii "Hello, "), BodyItem.s (ascii "title")]).flatten
            ++ ascii "\x7d\n\n" ++ ascii "func " ++ ascii "Page" ++ ascii "(" ++ ascii "title string"
            ++ ascii ") string \x7b\n\tw := quicktemplate.AcquireWriter()\n\t" ++ ascii "Page"
            ++ ascii "Stream(w, " ++ ascii "title"
            ++ ascii ")\n\ts := w.String()\n\tquicktemplate.ReleaseWriter(w)\n\treturn s\n\x7d" :=
  ⟨by decide, funcBlock_output_shape isSpaceAscii (ascii "Page(title string)") (ascii "Page")
    (ascii "title string") (ascii "title")
    [BodyItem.text (ascii "Hello, "), BodyItem.s (ascii "title")] [] false (by decide)⟩

theorem stringsSplit_line (l rest : Bytes) (h : lf ∉ l) :
    stringsSplit lf (l ++ lf :: rest) = l :: stringsSplit lf rest := by
  induction l with
  | nil => simp [stringsSplit]
  | cons b l ih =>
    have hb : b ≠ lf := fun hc => h (by simp [hc])
    have hl : lf ∉ l := fun hc => h (List.mem_cons_of_mem _ hc)
    rw [List.cons_append, stringsSplit, if_neg hb, ih hl]

/-- A text made of lines without a line feed, each followed by a line feed,
splits at the line feeds into exactly those lines and an empty rest. -/
theorem splitOn_lines (lines : List Bytes) (h : ∀ l ∈ lines, lf ∉ l) :
    ((lines.map (fun l => l ++ ascii "\n")).flatten).splitOn lf = lines ++ [[]] := by
  rw [← stringsSplit_eq_splitOn]
  induction lines with
  | nil => simp [stringsSplit]
  | cons l lines ih =>
    have e1 : ((l :: lines).map (fun l => l ++ ascii "\n")).flatten
        = l ++ lf :: (lines.map (fun l => l ++ ascii "\n")).flatten := by
      have a1 : ascii "\n" = [lf] := by decide
      simp [a1]
    rw [e1, stringsSplit_line l _ (h l (List.mem_cons_self _ _)),
      ih (fun x hx => h x (List.mem_cons_of_mem _ hx))]
    rfl

theorem emission_oneLine (item : BodyItem) (h : item.oneLine = true) :
    ∃ l, lf ∉ l ∧ item.emission = [l ++ ascii "\n"] := by
  have hp : item.plain = true ∧ lf ∉ item.value := by
    simpa [BodyItem.oneLine] using h
  obtain ⟨hplain, hlf⟩ := hp
  cases item with
  | text v =>
    obtain ⟨hne, hb⟩ : v ≠ [] ∧ backtick ∉ v := by simpa [BodyItem.plain] using hplain
    refine ⟨ascii "w.E.S(`" ++ v ++ ascii "`)", ?_, ?_⟩
    · intro hc
      rcases List.mem_append.mp hc with h1 | h1
      · rcases List.mem_append.mp h1 with h2 | h2
        · revert h2; decide
        · exact hlf h2
      · revert h1; decide
    · have h0 := emitTextLoop_plain v.length [] v hne hb
      have a2 : ascii "`)\n" = ascii "`)" ++ ascii "\n" := by decide
      simp only [BodyItem.emission, emitText, h0, List.nil_append, rawCall, a2,
        List.append_assoc]
  | s c =>
    refine ⟨ascii "w.E.S(" ++ c ++ ascii ")", ?_, ?_⟩
    · intro hc
      rcases List.mem_append.mp hc with h1 | h1
      · rcases List.mem_append.mp h1 with h2 | h2
        · revert h2; decide
        · exact hlf h2
      · revert h1; decide
    · have a2 : ascii ")\n" = ascii ")" ++ ascii "\n" := by decide
      simp [BodyItem.emission, parseS, expectTagContents, expectToken, Scanner.Next,
        Scanner.Token, Scanner.start, Outcome.sink, fprintf, a2]
  | d c =>
    refine ⟨ascii "w.D(" ++ c ++ ascii ")", ?_, ?_⟩
    · intro hc
      rcases List.mem_append.mp hc with h1 | h1
      · rcases List.mem_append.mp h1 with h2 | h2
        · revert h2; decide
        · exact hlf h2
      · revert h1; decide
    · have a2 : ascii ")\n" = ascii ")" ++ ascii "\n" := by decide
      simp [BodyItem.emission, parseD, expectTagContents, expectToken, Scanner.Next,
        Scanner.Token, Scanner.start, Outcome.sink, fprintf, a2]
  | f c =>
    refine ⟨ascii "w.F(" ++ c ++ ascii ")", ?_, ?_⟩
    · intro hc
      rcases List.mem_append.mp hc with h1 | h1
      · rcases List.mem_append.mp h1 with h2 | h2
        · revert h2; decide
        · exact hlf h2
      · revert h1; decide
    · have a2 : ascii ")\n" = ascii ")" ++ ascii "\n" := by decide
      simp [BodyItem.emission, parseF, expectTagContents, expectToken, Scanner.Next,
        Scanner.Token, Scanner.start, Outcome.sink, fprintf, a2]
  | code c =>
    refine ⟨c, hlf, ?_⟩
    simp [BodyItem.emission, parseCode, expectTagContents, expectToken, Scanner.Next,
      Scanner.Token, Scanner.start, Outcome.sink, fprintf]

theorem bodyEmission_oneLine (items : List BodyItem)
    (h : ∀ item ∈ items, item.oneLine = true) :
    ∃ lines : List Bytes,
      bodyEmission items = lines.map (fun l => l ++ ascii "\n")
        ∧ List.Forall₂ (fun item l => item.emission = [l ++ ascii "\n"]) items lines
        ∧ ∀ l ∈ lines, lf ∉ l := by
  induction items with
  | nil => exact ⟨[], rfl, List.Forall₂.nil, by simp⟩
  | cons item items ih =>
    obtain ⟨lines, hb, hf, hl⟩ := ih (fun i hi => h i (List.mem_cons_of_mem _ hi))
    obtain ⟨l, hlf, he⟩ := emission_oneLine item (h item (List.mem_cons_self _ _))
    refine ⟨l :: lines, ?_, List.Forall₂.cons he hf, ?_⟩
    · rw [List.map_cons, ← hb]
      simp [bodyEmission, he]
    · intro x hx
      rcases List.mem_cons.mp hx with h1 | h1
      · subst h1; exact hlf
      · exact hl x h1

/-- C6 fails at blocks with one body item whose body is not one line: for the
text of a single backtick the body of the streaming routine has two lines, for
the empty text it has none, for the text `a`, `b`, `c` on three lines it has
three, and for a `code` tag whose contents are two statements on two lines it
has two; the last four facts count the line feeds of the body text. -/
theorem funcBlock_text_item_not_one_line :
    translate isSpaceAscii
        (funcBlock (ascii "Page(title string)") [BodyItem.text (ascii "`")] []) false
      = .done ⟨[], tagContents [], false⟩
          [ascii "\nfunc PageStream(w *quicktemplate.Writer, title string) \x7b\n",
           ascii "w.E.S(``)\n",
           ascii "w.E.S(\"`\")\n",
           ascii "\x7d\n\n",
           ascii "func Page(title string) string \x7b\n\tw := quicktemplate.AcquireWriter()\n\tPageStream(w, title)\n\ts := w.String()\n\tquicktemplate.ReleaseWriter(w)\n\treturn s\n\x7d"]
    ∧ translate isSpaceAscii
        (funcBlock (ascii "Page(title string)") [BodyItem.text []] []) false
      = .done ⟨[], tagContents [], false⟩
          [ascii "\nfunc PageStream(w *quicktemplate.Writer, title string) \x7b\n",
           ascii "\x7d\n\n",
           ascii "func Page(title string) string \x7b\n\tw := quicktemplate.AcquireWriter()\n\tPageStream(w, title)\n\ts := w.String()\n\tquicktemplate.ReleaseWriter(w)\n\treturn s\n\x7d"]
    ∧ translate isSpaceAscii
        (funcBlock (ascii "Page(title string)") [BodyItem.text (ascii "a\nb\nc")] []) false
      = .done ⟨[], tagContents [], false⟩
          [ascii "\nfunc PageStream(w *quicktemplate.Writer, title string) \x7b\n",
           ascii "w.E.S(`a\nb\nc`)\n",
           ascii "\x7d\n\n",
           ascii "func Page(title string) string \x7b\n\tw := quicktemplate.AcquireWriter()\n\tPageStream(w, title)\n\ts := w.String()\n\tquicktemplate.ReleaseWriter(w)\n\treturn s\n\x7d"]
    ∧ translate isSpaceAscii
        (funcBlock (ascii "Page(title string)") [BodyItem.code (ascii "x := 1\ny := 2")] []) false
      = .done ⟨[], tagContents [], false⟩
          [ascii "\nfunc PageStream(w *quicktemplate.Writer, title string) \x7b\n",
           ascii "x := 1\ny := 2\n",
           ascii "\x7d\n\n",
           ascii "func Page(title string) string \x7b\n\tw := quicktemplate.AcquireWriter()\n\tPageStream(w, title)\n\ts := w.String()\n\tquicktemplate.ReleaseWriter(w)\n\treturn s\n\x7d"]
    ∧ (bodyEmission [BodyItem.text (ascii "`")]).flatten.count lf = 2
    ∧ (bodyEmission [BodyItem.text []]).flatten.count lf = 0
    ∧ (bodyEmission [BodyItem.text (ascii "a\nb\nc")]).flatten.count lf = 3
    ∧ (bodyEmission [BodyItem.code (ascii "x := 1\ny := 2")]).flatten.count lf = 2 := by
  decide

/-- C6, amended. For a complete function block with `k` body items in which
every `Text` item is non-empty and holds no backtick and no item has a line
feed in its value, the text of the sink is the header of the streaming routine
`<name>Stream`, then exactly `k` lines, one per body item in order, then the
line of the closing brace and the convenience routine `<name>`: the text
between the header and the closing brace is made of `k` texts without a line
feed, each followed by a line feed, the `i`-th being what the emitter of the
`i`-th item writes; splitting it at the line feeds gives those `k` lines and an
empty rest. -/
theorem funcBlock_one_line_per_item (isSpace : Byte → Bool) (sig name args names : Bytes)
    (items : List BodyItem) (c : Bytes) (err : Bool)
    (h : splitFnameFargs isSpace sig = .ok (name, args, names))
    (hline : ∀ item ∈ items, item.oneLine = true) :
    ∃ lines : List Bytes,
      (translate isSpace (funcBlock sig items c) err).sink.text
          = ascii "\nfunc " ++ name ++ ascii "Stream(w *quicktemplate.Writer, " ++ args
              ++ ascii ") \x7b\n"
            ++ (lines.map (fun l => l ++ ascii "\n")).flatten
            ++ ascii "\x7d\n\n"
            ++ ascii "func " ++ name ++ ascii "(" ++ args
            ++ ascii ") string \x7b\n\tw := quicktemplate.AcquireWriter()\n\t" ++ name
            ++ ascii "Stream(w, " ++ names
            ++ ascii ")\n\ts := w.String()\n\tquicktemplate.ReleaseWriter(w)\n\treturn s\n\x7d"
        ∧ lines.length = items.length
        ∧ (∀ l ∈ lines, lf ∉ l)
        ∧ ((lines.map (fun l => l ++ ascii "\n")).flatten).splitOn lf = lines ++ [[]]
        ∧ List.Forall₂ (fun item l => item.emission = [l ++ ascii "\n"]) items lines := by
  obtain ⟨lines, hb, hf, hl⟩ := bodyEmission_oneLine items hline
  refine ⟨lines, ?_, hf.length_eq.symm, hl, splitOn_lines lines hl, hf⟩
  rw [translate_funcBlock isSpace sig name args names items c err h, hb]
  cases err <;> simp [Outcome.sink, Sink.text, emitFuncEnd, emitFuncStart, fprintf]

theorem funcBlock_one_line_per_item_witness :
    splitFnameFargs isSpaceAscii (ascii "Page(title string)")
        = .ok (ascii "Page", ascii "title string", ascii "title")
      ∧ (∀ item ∈ [BodyItem.text (ascii "<h1>"), BodyItem.s (ascii "title"),
            BodyItem.code (ascii "n++")], item.oneLine = true)
      ∧ ∃ lines : List Bytes,
        (translate isSpaceAscii (funcBlock (ascii "Page(title string)")
            [BodyItem.text (ascii "<h1>"), BodyItem.s (ascii "title"), BodyItem.code (ascii "n++")]
            (ascii "")) false).sink.text
          = ascii "\nfunc " ++ ascii "Page" ++ ascii "Stream(w *quicktemplate.Writer, "
              ++ ascii "title string" ++ ascii ") \x7b\n"
            ++ (lines.map (fun l => l ++ ascii "\n")).flatten
            ++ ascii "\x7d\n\n"
            ++ ascii "func " ++ ascii "Page" ++ ascii "(" ++ ascii "title string"
            ++ ascii ") string \x7b\n\tw := quicktemplate.AcquireWriter()\n\t" ++ ascii "Page"
            ++ ascii "Stream(w, " ++ ascii "title"
            ++ ascii ")\n\ts := w.String()\n\tquicktemplate.ReleaseWriter(w)\n\treturn s\n\x7d"
        ∧ lines.length
            = [BodyItem.text (ascii "<h1>"), BodyItem.s (ascii "title"),
                BodyItem.code (ascii "n++")].length
        ∧ (∀ l ∈ lines, lf ∉ l)
        ∧ ((lines.map (fun l => l ++ ascii "\n")).flatten).splitOn lf = lines ++ [[]]
        ∧ List.Forall₂ (fun item l => item.emission = [l ++ ascii "\n"])
            [BodyItem.text (ascii "<h1>"), BodyItem.s (ascii "title"), BodyItem.code (ascii "n++")]
            lines :=
  ⟨by decide, by decide,
    funcBlock_one_line_per_item isSpaceAscii (ascii "Page(title string)") (ascii "Page")
      (ascii "title string") (ascii "title")
      [BodyItem.text (ascii "<h1>"), BodyItem.s (ascii "title"), BodyItem.code (ascii "n++")]
      (ascii "") false (by decide) (by decide)⟩

/-! ## Runs on variant inputs and on a longer sink -/

theorem parseCode_eq_tagEmit (s : Scanner) (w : Sink) :
    parseCode s w = tagEmit (fun v => v ++ ascii "\n") s w := rfl

theorem parseS_eq_tagEmit (s : Scanner) (w : Sink) :
    parseS s w = tagEmit (fun v => ascii "w.E.S(" ++ v ++ ascii ")\n") s w := rfl

theorem parseD_eq_tagEmit (s : Scanner) (w : Sink) :
    parseD s w = tagEmit (fun v => ascii "w.D(" ++ v ++ ascii ")\n") s w := rfl

theorem parseF_eq_tagEmit (s : Scanner) (w : Sink) :
    parseF s w = tagEmit (fun v => ascii "w.F(" ++ v ++ ascii ")\n") s w := rfl

theorem Variant.length_eq {l1 l2 : List Token} (h : Variant l1 l2) : l1.length = l2.length := by
  induction h with
  | same l => rfl
  | here c1 c2 post => simp
  | cons t _ ih => simp [ih]

theorem Variant.cases_head {l1 l2 : List Token} (h : Variant l1 l2) :
    (l1 = [] ∧ l2 = [])
      ∨ (∃ c1 c2 post, l1 = tagName "endfunc" :: tagContents c1 :: post
          ∧ l2 = tagName "endfunc" :: tagContents c2 :: post)
      ∨ (∃ t tl1 tl2, l1 = t :: tl1 ∧ l2 = t :: tl2 ∧ Variant tl1 tl2) := by
  cases h with
  | same =>
    cases l1 with
    | nil => exact Or.inl ⟨rfl, rfl⟩
    | cons t rest => exact Or.inr (Or.inr ⟨t, rest, rest, rfl, rfl, Variant.same rest⟩)
  | here c1 c2 post => exact Or.inr (Or.inl ⟨c1, c2, post, rfl, rfl⟩)
  | cons t v => exact Or.inr (Or.inr ⟨t, _, _, rfl, rfl, v⟩)

theorem expectTagContents_variant (in1 in2 : List Token) (tok1 tok2 : Token) (err : Bool)
    (hv : Variant in1 in2) :
    (∃ e, expectTagContents ⟨in1, tok1, err⟩ = .error e
        ∧ expectTagContents ⟨in2, tok2, err⟩ = .error e)
      ∨ (∃ t tl1 tl2, expectTagContents ⟨in1, tok1, err⟩ = .ok (t, ⟨tl1, t, err⟩)
          ∧ expectTagContents ⟨in2, tok2, err⟩ = .ok (t, ⟨tl2, t, err⟩)
          ∧ Variant tl1 tl2 ∧ in1 = t :: tl1) := by
  rcases hv.cases_head with ⟨h1, h2⟩ | ⟨c1, c2, post, h1, h2⟩ | ⟨t, tl1, tl2, h1, h2, v⟩
  · subst h1 h2
    exact Or.inl ⟨Abort.cannotFindToken, by simp [expectTagContents, expectToken, Scanner.Next],
      by simp [expectTagContents, expectToken, Scanner.Next]⟩
  · subst h1 h2
    exact Or.inl ⟨Abort.unexpectedTokenFound,
      by simp [expectTagContents, expectToken, Scanner.Next, Scanner.Token, tagName],
      by simp [expectTagContents, expectToken, Scanner.Next, Scanner.Token, tagName]⟩
  · subst h1 h2
    by_cases ht : t.ID = TokenID.TagContents
    · exact Or.inr ⟨t, tl1, tl2,
        by simp [expectTagContents, expectToken, Scanner.Next, Scanner.Token, ht],
        by simp [expectTagContents, expectToken, Scanner.Next, Scanner.Token, ht], v, rfl⟩
    · exact Or.inl ⟨Abort.unexpectedTokenFound,
        by simp [expectTagContents, expectToken, Scanner.Next, Scanner.Token, ht],
        by simp [expectTagContents, expectToken, Scanner.Next, Scanner.Token, ht]⟩

theorem fprintf_append (w0 w : Sink) (c : Bytes) : fprintf (w0 ++ w) c = w0 ++ fprintf w c := by
  simp [fprintf]

theorem tagEmit_agree (line : Bytes → Bytes) (in1 in2 : List Token) (tok1 tok2 : Token)
    (err : Bool) (w0 w : Sink) (hv : Variant in1 in2) :
    (tagEmit line ⟨in1, tok1, err⟩ (w0 ++ w)).Agree w0 (tagEmit line ⟨in2, tok2, err⟩ w) := by
  unfold tagEmit
  rcases expectTagContents_variant in1 in2 tok1 tok2 err hv with
    ⟨e, h1, h2⟩ | ⟨t, tl1, tl2, h1, h2, v, -⟩
  · rw [h1, h2]
    exact ⟨rfl, rfl⟩
  · rw [h1, h2]
    exact ⟨fprintf_append _ _ _, rfl, v⟩

theorem agree_then (w0 : Sink) (o1 o2 : Outcome) (k1 k2 : Scanner → Sink → Outcome) :
    o1.Agree w0 o2 →
      (∀ in1 in2 tok1 tok2 err w, Variant in1 in2 →
        (k1 ⟨in1, tok1, err⟩ (w0 ++ w)).Agree w0 (k2 ⟨in2, tok2, err⟩ w)) →
      (match o1 with
        | .aborted e w1 => Outcome.aborted e w1
        | .done s w1 => k1 s w1).Agree w0
        (match o2 with
          | .aborted e w1 => Outcome.aborted e w1
          | .done s w1 => k2 s w1) := by
  intro ho hk
  cases o1 with
  | aborted e1 w1 =>
    cases o2 with
    | aborted e2 w2 => exact ho
    | done s2 w2 => exact ho.elim
  | done s1 w1 =>
    cases o2 with
    | aborted e2 w2 => exact ho.elim
    | done s2 w2 =>
      obtain ⟨hw, herr, hv⟩ := ho
      obtain ⟨in1, tok1, err1⟩ := s1
      obtain ⟨in2, tok2, err2⟩ := s2
      simp only at herr hv
      subst herr hw
      exact hk in1 in2 tok1 tok2 err1 w2 hv

theorem emitFuncStart_append (w0 w : Sink) (fn fa : Bytes) :
    emitFuncStart (w0 ++ w) fn fa = w0 ++ emitFuncStart w fn fa := by
  simp [emitFuncStart, fprintf]

theorem emitFuncEnd_append (w0 w : Sink) (fn fa fnt : Bytes) :
    emitFuncEnd (w0 ++ w) fn fa fnt = w0 ++ emitFuncEnd w fn fa fnt := by
  simp [emitFuncEnd, fprintf]

/-- The loop of `parseFunc` does not read the sink, the current token, or the
contents of an `endfunc` tag. -/
theorem parseFuncLoop_agree (fn fa fnt : Bytes) (w0 : Sink) :
    ∀ (fuel : Nat) (in1 in2 : List Token) (tok1 tok2 : Token) (err : Bool) (w : Sink),
      Variant in1 in2 →
        (parseFuncLoop fn fa fnt fuel ⟨in1, tok1, err⟩ (w0 ++ w)).Agree w0
          (parseFuncLoop fn fa fnt fuel ⟨in2, tok2, err⟩ w) := by
  intro fuel
  induction fuel with
  | zero =>
    intro in1 in2 tok1 tok2 err w _
    exact ⟨rfl, rfl⟩
  | succ fuel ih =>
    intro in1 in2 tok1 tok2 err w hv
    have hk : ∀ in1 in2 tok1 tok2 err w, Variant in1 in2 →
        (parseFuncLoop fn fa fnt fuel ⟨in1, tok1, err⟩ (w0 ++ w)).Agree w0
          (parseFuncLoop fn fa fnt fuel ⟨in2, tok2, err⟩ w) := ih
    rcases hv.cases_head with ⟨h1, h2⟩ | ⟨c1, c2, post, h1, h2⟩ | ⟨t, tl1, tl2, h1, h2, v⟩
    · subst h1 h2
      rw [parseFuncLoop_exhausted, parseFuncLoop_exhausted]
      cases err
      · exact ⟨rfl, rfl, Variant.same []⟩
      · exact ⟨rfl, rfl⟩
    · subst h1 h2
      rw [parseFuncLoop_endfunc, parseFuncLoop_endfunc]
      exact ⟨emitFuncEnd_append _ _ _ _ _, rfl, Variant.same post⟩
    · subst h1 h2
      rw [parseFuncLoop, parseFuncLoop]
      simp only [Scanner.Next, Scanner.Token]
      obtain ⟨id, val⟩ := t
      cases id with
      | Text =>
        simp only [emitText_eq_emission]
        have h := ih tl1 tl2 ⟨TokenID.Text, val⟩ ⟨TokenID.Text, val⟩ err
          (w ++ (BodyItem.text val).emission) v
        rwa [← List.append_assoc] at h
      | TagName =>
        simp only
        by_cases he : val = ascii "endfunc"
        · simp only [if_pos he]
          rcases expectTagContents_variant tl1 tl2 ⟨TokenID.TagName, val⟩ ⟨TokenID.TagName, val⟩
            err v with ⟨e, h1, h2⟩ | ⟨t, r1, r2, h1, h2, v1, -⟩
          · rw [h1, h2]
            exact ⟨rfl, rfl⟩
          · rw [h1, h2]
            exact ⟨emitFuncEnd_append _ _ _ _ _, rfl, v1⟩
        · simp only [if_neg he]
          by_cases hs : val = ascii "s"
          · simp only [if_pos hs, parseS_eq_tagEmit]
            exact agree_then _ _ _ _ _ (tagEmit_agree _ _ _ _ _ _ _ _ v) hk
          · simp only [if_neg hs]
            by_cases hd : val = ascii "d"
            · simp only [if_pos hd, parseD_eq_tagEmit]
              exact agree_then _ _ _ _ _ (tagEmit_agree _ _ _ _ _ _ _ _ v) hk
            · simp only [if_neg hd]
              by_cases hf : val = ascii "f"
              · simp only [if_pos hf, parseF_eq_tagEmit]
                exact agree_then _ _ _ _ _ (tagEmit_agree _ _ _ _ _ _ _ _ v) hk
              · simp only [if_neg hf]
                by_cases hc : val = ascii "code"
                · simp only [if_pos hc, parseCode_eq_tagEmit]
                  exact agree_then _ _ _ _ _ (tagEmit_agree _ _ _ _ _ _ _ _ v) hk
                · simp only [if_neg hc]
                  exact ⟨rfl, rfl⟩
      | TagContents => exact ⟨rfl, rfl⟩
      | other k => exact ⟨rfl, rfl⟩

theorem parseFunc_agree (isSpace : Byte → Bool) (in1 in2 : List Token) (tok1 tok2 : Token)
    (err : Bool) (w0 w : Sink) (hv : Variant in1 in2) :
    (parseFunc isSpace ⟨in1, tok1, err⟩ (w0 ++ w)).Agree w0
      (parseFunc isSpace ⟨in2, tok2, err⟩ w) := by
  unfold parseFunc
  rcases expectTagContents_variant in1 in2 tok1 tok2 err hv with
    ⟨e, h1, h2⟩ | ⟨t, tl1, tl2, h1, h2, v, -⟩
  · rw [h1, h2]
    exact ⟨rfl, rfl⟩
  · rw [h1, h2]
    simp only
    cases splitFnameFargs isSpace t.Value with
    | error e => exact ⟨rfl, rfl⟩
    | ok r =>
      obtain ⟨fname, fargs, names⟩ := r
      simp only
      rw [emitFuncStart_append, v.length_eq]
      exact parseFuncLoop_agree fname fargs names w0 _ tl1 tl2 t t err _ v

/-- The loop of `parseTemplate` does not read the sink, the current token, or
the contents of an `endfunc` tag. -/
theorem parseTemplateLoop_agree (isSpace : Byte → Bool) (w0 : Sink) :
    ∀ (fuel : Nat) (in1 in2 : List Token) (tok1 tok2 : Token) (err : Bool) (w : Sink),
      Variant in1 in2 →
        (parseTemplateLoop isSpace fuel ⟨in1, tok1, err⟩ (w0 ++ w)).Agree w0
          (parseTemplateLoop isSpace fuel ⟨in2, tok2, err⟩ w) := by
  intro fuel
  induction fuel with
  | zero =>
    intro in1 in2 tok1 tok2 err w _
    exact ⟨rfl, rfl⟩
  | succ fuel ih =>
    intro in1 in2 tok1 tok2 err w hv
    have hk : ∀ in1 in2 tok1 tok2 err w, Variant in1 in2 →
        (parseTemplateLoop isSpace fuel ⟨in1, tok1, err⟩ (w0 ++ w)).Agree w0
          (parseTemplateLoop isSpace fuel ⟨in2, tok2, err⟩ w) := ih
    rcases hv.cases_head with ⟨h1, h2⟩ | ⟨c1, c2, post, h1, h2⟩ | ⟨t, tl1, tl2, h1, h2, v⟩
    · subst h1 h2
      rw [parseTemplateLoop_exhausted, parseTemplateLoop_exhausted]
      cases err
      · exact ⟨rfl, rfl, Variant.same []⟩
      · exact ⟨rfl, rfl⟩
    · subst h1 h2
      rw [parseTemplateLoop, parseTemplateLoop]
      simp only [Scanner.Next, Scanner.Token, tagName,
        if_neg (show ascii "endfunc" ≠ ascii "code" by decide),
        if_neg (show ascii "endfunc" ≠ ascii "func" by decide)]
      exact ⟨rfl, rfl⟩
    · subst h1 h2
      rw [parseTemplateLoop, parseTemplateLoop]
      simp only [Scanner.Next, Scanner.Token]
      obtain ⟨id, val⟩ := t
      cases id with
      | Text => exact ih tl1 tl2 _ _ err w v
      | TagName =>
        simp only
        by_cases hc : val = ascii "code"
        · simp only [if_pos hc, parseCode_eq_tagEmit]
          exact agree_then _ _ _ _ _ (tagEmit_agree _ _ _ _ _ _ _ _ v) hk
        · simp only [if_neg hc]
          by_cases hf : val = ascii "func"
          · simp only [if_pos hf]
            exact agree_then _ _ _ _ _ (parseFunc_agree isSpace _ _ _ _ _ _ _ v) hk
          · simp only [if_neg hf]
            exact ⟨rfl, rfl⟩
      | TagContents => exact ⟨rfl, rfl⟩
      | other k => exact ⟨rfl, rfl⟩

theorem Outcome.Agree.abort_eq {w0 : Sink} {o1 o2 : Outcome} (h : o1.Agree w0 o2) :
    o1.abort = o2.abort := by
  cases o1 <;> cases o2 <;> simp [Outcome.Agree, Outcome.abort] at h ⊢
  exact h.1

theorem Outcome.Agree.sink_eq {w0 : Sink} {o1 o2 : Outcome} (h : o1.Agree w0 o2) :
    o1.sink = w0 ++ o2.sink := by
  cases o1 <;> cases o2 <;> simp [Outcome.Agree, Outcome.sink] at h ⊢
  · exact h.1
  · exact h.2

/-- The translations of two variant token sequences end the same way with the
same sink. -/
theorem translate_variant (isSpace : Byte → Bool) (l1 l2 : List Token) (err : Bool)
    (hv : Variant l1 l2) :
    (translate isSpace l1 err).Agree [] (translate isSpace l2 err) := by
  unfold translate parseTemplate Scanner.start
  simp only [hv.length_eq]
  exact parseTemplateLoop_agree isSpace [] _ l1 l2 _ _ err [] hv

theorem variant_append (pre post : List Token) (c1 c2 : Bytes) :
    Variant (pre ++ tagName "endfunc" :: tagContents c1 :: post)
      (pre ++ tagName "endfunc" :: tagContents c2 :: post) := by
  induction pre with
  | nil => exact Variant.here c1 c2 post
  | cons t pre ih => exact Variant.cons t ih

/-! ## Complete units of the outermost level -/

theorem output_text (isSpace : Byte → Bool) (v : Bytes) :
    (TopItem.text v).output isSpace = [] := by
  simp [TopItem.output, TopItem.tokens, translate, parseTemplate, parseTemplateLoop,
    Scanner.start, Scanner.Next, Scanner.Token, Scanner.LastError, Outcome.sink]

theorem output_code (isSpace : Byte → Bool) (c : Bytes) :
    (TopItem.code c).output isSpace = [c ++ ascii "\n"] := by
  simp [TopItem.output, TopItem.tokens, translate, parseTemplate, parseTemplateLoop,
    Scanner.start, Scanner.Next, Scanner.Token, Scanner.LastError, Outcome.sink, tagName,
    tagContents, parseCode, expectTagContents, expectToken, fprintf]

theorem output_func (isSpace : Byte → Bool) (sig name args names : Bytes)
    (items : List BodyItem) (c : Bytes)
    (h : splitFnameFargs isSpace sig = .ok (name, args, names)) :
    (TopItem.func sig items c).output isSpace
      = emitFuncEnd (emitFuncStart [] name args ++ bodyEmission items) name args names := by
  simp [TopItem.output, TopItem.tokens, translate_funcBlock isSpace sig name args names items c
    false h, Outcome.sink]

/-- One complete unit at the head of the input: the driver consumes its tokens
and appends its output. -/
theorem parseTemplateLoop_unit (isSpace : Byte → Bool) (u : TopItem)
    (hu : u.splittable isSpace = true) (fuel : Nat) (rest : List Token) (tok : Token)
    (err : Bool) (w : Sink) :
    ∃ tok1, parseTemplateLoop isSpace (fuel + 1) ⟨u.tokens ++ rest, tok, err⟩ w
      = parseTemplateLoop isSpace fuel ⟨rest, tok1, err⟩ (w ++ u.output isSpace) := by
  cases u with
  | text v =>
    refine ⟨⟨TokenID.Text, v⟩, ?_⟩
    rw [parseTemplateLoop, output_text]
    simp [TopItem.tokens, Scanner.Next, Scanner.Token]
  | code c =>
    refine ⟨tagContents c, ?_⟩
    rw [parseTemplateLoop, output_code]
    simp [TopItem.tokens, Scanner.Next, Scanner.Token, tagName, tagContents, parseCode,
      expectTagContents, expectToken, fprintf]
  | func sig items c =>
    cases hs : splitFnameFargs isSpace sig with
    | error e => simp [TopItem.splittable, hs] at hu
    | ok r =>
      obtain ⟨name, args, names⟩ := r
      refine ⟨tagContents c, ?_⟩
      have e1 : (TopItem.func sig items c).tokens ++ rest
          = tagName "func" :: tagContents sig
              :: (bodyTokens items ++ tagName "endfunc" :: tagContents c :: rest) := by
        simp [TopItem.tokens, funcBlock, openBlock]
      rw [e1, parseTemplateLoop_func,
        parseFunc_complete isSpace sig name args names items c rest _ err w hs,
        output_func isSpace sig name args names items c hs]
      simp [emitFuncEnd, emitFuncStart, fprintf]

theorem length_tokens_pos (u : TopItem) : 0 < u.tokens.length := by
  cases u <;> simp [TopItem.tokens, funcBlock, openBlock]

/-- Complete units at the head of the input: the driver consumes their tokens
and appends their outputs. -/
theorem parseTemplateLoop_units (isSpace : Byte → Bool) (us : List TopItem)
    (hus : ∀ u ∈ us, u.splittable isSpace = true) :
    ∀ (fuel : Nat) (rest : List Token) (tok : Token) (err : Bool) (w : Sink),
      (topTokens us ++ rest).length < fuel →
        ∃ tok1, parseTemplateLoop isSpace fuel ⟨topTokens us ++ rest, tok, err⟩ w
          = parseTemplateLoop isSpace (rest.length + 1) ⟨rest, tok1, err⟩
              (w ++ topOutput isSpace us) := by
  induction us with
  | nil =>
    intro fuel rest tok err w hfuel
    refine ⟨tok, ?_⟩
    simp only [topTokens, topOutput, List.map_nil, List.flatten_nil, List.nil_append,
      List.append_nil] at hfuel ⊢
    exact parseTemplateLoop_fuel isSpace _ _ _ _ hfuel (Nat.lt_succ_self _)
  | cons u us ih =>
    intro fuel rest tok err w hfuel
    have e1 : topTokens (u :: us) ++ rest = u.tokens ++ (topTokens us ++ rest) := by
      simp [topTokens]
    have e2 : w ++ topOutput isSpace (u :: us)
        = w ++ u.output isSpace ++ topOutput isSpace us := by
      simp [topOutput]
    have hpos := length_tokens_pos u
    rw [e1] at hfuel ⊢
    rw [List.length_append] at hfuel
    obtain ⟨f, rfl⟩ : ∃ f, fuel = f + 1 := ⟨fuel - 1, by omega⟩
    obtain ⟨tok1, h1⟩ := parseTemplateLoop_unit isSpace u (hus u (List.mem_cons_self _ _)) f
      (topTokens us ++ rest) tok err w
    obtain ⟨tok2, h2⟩ := ih (fun v hv => hus v (List.mem_cons_of_mem _ hv)) f rest tok1 err
      (w ++ u.output isSpace) (by omega)
    exact ⟨tok2, by rw [h1, h2, e2]⟩

/-- The translation of complete units followed by any tokens: it ends as the
translation of those tokens alone does, with the outputs of the units written
first. -/
theorem translate_units (isSpace : Byte → Bool) (us : List TopItem)
    (hus : ∀ u ∈ us, u.splittable isSpace = true) (ts2 : List Token) (err : Bool) :
    (translate isSpace (topTokens us ++ ts2) err).Agree (topOutput isSpace us)
      (translate isSpace ts2 err) := by
  obtain ⟨tok1, h1⟩ := parseTemplateLoop_units isSpace us hus
    ((topTokens us ++ ts2).length + 1) ts2 ⟨TokenID.Text, []⟩ err [] (Nat.lt_succ_self _)
  unfold translate parseTemplate Scanner.start
  rw [h1]
  have := parseTemplateLoop_agree isSpace (topOutput isSpace us) (ts2.length + 1) ts2 ts2 tok1
    ⟨TokenID.Text, []⟩ err [] (Variant.same ts2)
  simpa using this

theorem translate_nil (isSpace : Byte → Bool) (err : Bool) :
    translate isSpace [] err
      = if err then .aborted .cannotParseTemplate [] else .done ⟨[], ⟨TokenID.Text, []⟩, err⟩ [] := by
  unfold translate parseTemplate Scanner.start
  exact parseTemplateLoop_exhausted isSpace 0 _ err []

/-- The outputs of complete units are what the translation of their tokens
writes. -/
theorem sink_translate_units (isSpace : Byte → Bool) (us : List TopItem)
    (hus : ∀ u ∈ us, u.splittable isSpace = true) (err : Bool) :
    (translate isSpace (topTokens us) err).sink = topOutput isSpace us := by
  have h := (translate_units isSpace us hus [] err).sink_eq
  rw [List.append_nil, translate_nil] at h
  rw [h]
  cases err <;> simp [Outcome.sink]

/-! ## Structural errors -/

theorem translate_units_abort (isSpace : Byte → Bool) (us : List TopItem)
    (hus : ∀ u ∈ us, u.splittable isSpace = true) (tail : List Token) (err : Bool) (e : Abort)
    (extra : Sink)
    (h : ∀ fuel tok w,
      parseTemplateLoop isSpace (fuel + 1) ⟨tail, tok, err⟩ w = .aborted e (w ++ extra)) :
    translate isSpace (topTokens us ++ tail) err
      = .aborted e ((translate isSpace (topTokens us) false).sink ++ extra) := by
  obtain ⟨tok1, h1⟩ := parseTemplateLoop_units isSpace us hus
    ((topTokens us ++ tail).length + 1) tail ⟨TokenID.Text, []⟩ err [] (Nat.lt_succ_self _)
  rw [sink_translate_units isSpace us hus false]
  unfold translate parseTemplate Scanner.start
  rw [h1, h, List.nil_append]

theorem parseTemplateLoop_body_abort (isSpace : Byte → Bool) (sig name args names : Bytes)
    (items : List BodyItem) (tail : List Token) (err : Bool) (e : Abort)
    (hs : splitFnameFargs isSpace sig = .ok (name, args, names))
    (h : ∀ fuel tok w, parseFuncLoop name args names (fuel + 1) ⟨tail, tok, err⟩ w = .aborted e w)
    (fuel : Nat) (tok : Token) (w : Sink) :
    parseTemplateLoop isSpace (fuel + 1) ⟨openBlock sig items ++ tail, tok, err⟩ w
      = .aborted e (w ++ (emitFuncStart [] name args ++ bodyEmission items)) := by
  have e1 : openBlock sig items ++ tail
      = tagName "func" :: tagContents sig :: (bodyTokens items ++ tail) := by
    simp [openBlock]
  rw [e1, parseTemplateLoop_func]
  unfold parseFunc
  simp only [expectTagContents, expectToken, Scanner.Next, Scanner.Token, tagContents,
    ne_eq, not_true_eq_false, if_false, hs]
  have hlen := length_le_length_bodyTokens items
  obtain ⟨k, hk⟩ : ∃ k, (bodyTokens items ++ tail).length + 1 = k + 1 + items.length :=
    ⟨(bodyTokens items).length - items.length + tail.length, by
      simp only [List.length_append]; omega⟩
  rw [hk]
  obtain ⟨tok1, h1⟩ := parseFuncLoop_items name args names items (k + 1) tail
    (tagContents sig) err (emitFuncStart w name args)
  simp only [tagContents] at h1
  rw [h1, h]
  simp [emitFuncStart, fprintf]

theorem parseTemplateLoop_bad_token (isSpace : Byte → Bool) (t : Token) (rest : List Token)
    (hbad : (t.ID = TokenID.TagName ∧ t.Value ≠ ascii "code" ∧ t.Value ≠ ascii "func")
      ∨ (t.ID ≠ TokenID.Text ∧ t.ID ≠ TokenID.TagName))
    (fuel : Nat) (tok : Token) (err : Bool) (w : Sink) :
    parseTemplateLoop isSpace (fuel + 1) ⟨t :: rest, tok, err⟩ w
      = .aborted (if t.ID = TokenID.TagName then Abort.unexpectedTagOutsideFunc
          else Abort.unexpectedTokenTemplate) w := by
  obtain ⟨id, val⟩ := t
  rw [parseTemplateLoop]
  simp only [Scanner.Next, Scanner.Token]
  rcases hbad with ⟨h1, h2, h3⟩ | ⟨h1, h2⟩
  · simp only at h1 h2 h3
    subst h1
    simp [h2, h3]
  · simp only at h1 h2
    cases id with
    | Text => exact absurd rfl h1
    | TagName => exact absurd rfl h2
    | TagContents => simp
    | other k => simp

theorem parseFuncLoop_bad_token (fn fa fnt : Bytes) (t : Token) (rest : List Token)
    (hbad : (t.ID = TokenID.TagName
        ∧ t.Value ∉ [ascii "s", ascii "d", ascii "f", ascii "code", ascii "endfunc"])
      ∨ (t.ID ≠ TokenID.Text ∧ t.ID ≠ TokenID.TagName))
    (fuel : Nat) (tok : Token) (err : Bool) (w : Sink) :
    parseFuncLoop fn fa fnt (fuel + 1) ⟨t :: rest, tok, err⟩ w
      = .aborted (if t.ID = TokenID.TagName then Abort.unexpectedTagInsideFunc
          else Abort.unexpectedTokenFunc) w := by
  obtain ⟨id, val⟩ := t
  rw [parseFuncLoop]
  simp only [Scanner.Next, Scanner.Token]
  rcases hbad with ⟨h1, h2⟩ | ⟨h1, h2⟩
  · simp only at h1 h2
    subst h1
    simp only [List.mem_cons, List.mem_singleton, List.not_mem_nil, or_false, not_or] at h2
    obtain ⟨hs, hd, hf, hc, he⟩ := h2
    simp [hs, hd, hf, hc, he]
  · simp only at h1 h2
    cases id with
    | Text => exact absurd rfl h1
    | TagName => exact absurd rfl h2
    | TagContents => simp
    | other k => simp

theorem expectTagContents_missing (rest : List Token) (tok : Token) (err : Bool)
    (hrest : rest.head?.map Token.ID ≠ some TokenID.TagContents) :
    expectTagContents ⟨rest, tok, err⟩ = .error (missingContents rest) := by
  cases rest with
  | nil => simp [expectTagContents, expectToken, Scanner.Next, missingContents]
  | cons t tl =>
    have ht : t.ID ≠ TokenID.TagContents := by simpa using hrest
    simp [expectTagContents, expectToken, Scanner.Next, Scanner.Token, missingContents, ht]

theorem parseTemplateLoop_missing_contents (isSpace : Byte → Bool) (X : String)
    (hX : X ∈ ["code", "func"]) (rest : List Token)
    (hrest : rest.head?.map Token.ID ≠ some TokenID.TagContents)
    (fuel : Nat) (tok : Token) (err : Bool) (w : Sink) :
    parseTemplateLoop isSpace (fuel + 1) ⟨tagName X :: rest, tok, err⟩ w
      = .aborted (missingContents rest) w := by
  rw [parseTemplateLoop]
  simp only [Scanner.Next, Scanner.Token, tagName]
  simp only [List.mem_cons, List.mem_singleton, List.not_mem_nil, or_false] at hX
  rcases hX with rfl | rfl
  · simp [parseCode, expectTagContents_missing rest _ err hrest]
  · simp only [if_neg (show ascii "func" ≠ ascii "code" by decide), if_true]
    simp [parseFunc, expectTagContents_missing rest _ err hrest]

theorem parseFuncLoop_missing_contents (fn fa fnt : Bytes) (X : String)
    (hX : X ∈ ["endfunc", "s", "d", "f", "code"]) (rest : List Token)
    (hrest : rest.head?.map Token.ID ≠ some TokenID.TagContents)
    (fuel : Nat) (tok : Token) (err : Bool) (w : Sink) :
    parseFuncLoop fn fa fnt (fuel + 1) ⟨tagName X :: rest, tok, err⟩ w
      = .aborted (missingContents rest) w := by
  rw [parseFuncLoop]
  simp only [Scanner.Next, Scanner.Token, tagName]
  simp only [List.mem_cons, List.mem_singleton, List.not_mem_nil, or_false] at hX
  rcases hX with rfl | rfl | rfl | rfl | rfl
  · simp [expectTagContents_missing rest _ err hrest]
  · simp only [if_neg (show ascii "s" ≠ ascii "endfunc" by decide), if_true]
    simp [parseS, expectTagContents_missing rest _ err hrest]
  · simp only [if_neg (show ascii "d" ≠ ascii "endfunc" by decide),
      if_neg (show ascii "d" ≠ ascii "s" by decide), if_true]
    simp [parseD, expectTagContents_missing rest _ err hrest]
  · simp only [if_neg (show ascii "f" ≠ ascii "endfunc" by decide),
      if_neg (show ascii "f" ≠ ascii "s" by decide),
      if_neg (show ascii "f" ≠ ascii "d" by decide), if_true]
    simp [parseF, expectTagContents_missing rest _ err hrest]
  · simp only [if_neg (show ascii "code" ≠ ascii "endfunc" by decide),
      if_neg (show ascii "code" ≠ ascii "s" by decide),
      if_neg (show ascii "code" ≠ ascii "d" by decide),
      if_neg (show ascii "code" ≠ ascii "f" by decide), if_true]
    simp [parseCode, expectTagContents_missing rest _ err hrest]

theorem parseTemplateLoop_all_text (isSpace : Byte → Bool) :
    ∀ (toks : List Token) (fuel : Nat) (tok : Token) (w : Sink),
      (∀ t ∈ toks, t.ID = TokenID.Text) → toks.length < fuel →
        ∃ tok1, parseTemplateLoop isSpace fuel ⟨toks, tok, false⟩ w = .done ⟨[], tok1, false⟩ w := by
  intro toks
  induction toks with
  | nil =>
    intro fuel tok w _ hfuel
    obtain ⟨f, rfl⟩ : ∃ f, fuel = f + 1 := ⟨fuel - 1, by simp at hfuel; omega⟩
    exact ⟨tok, by rw [parseTemplateLoop_exhausted]; rfl⟩
  | cons t toks ih =>
    intro fuel tok w hall hfuel
    obtain ⟨f, rfl⟩ : ∃ f, fuel = f + 1 := ⟨fuel - 1, by simp at hfuel; omega⟩
    obtain ⟨tok1, h1⟩ := ih f t w (fun u hu => hall u (List.mem_cons_of_mem _ hu))
      (by simpa using hfuel)
    refine ⟨tok1, ?_⟩
    obtain ⟨id, val⟩ := t
    have hid : id = TokenID.Text := hall _ (List.mem_cons_self _ _)
    subst hid
    rw [parseTemplateLoop]
    simpa [Scanner.Next, Scanner.Token] using h1

/-! ## The claims about the tag emitters and the driver -/

/-- C13. The output of the tag emitters: when the token after the tag name is a
`TagContents` token with value `p`, the `code` emitter appends the line `p`
verbatim, the `s`, `d` and `f` emitters append `w.E.S(p)`, `w.D(p)` and
`w.F(p)`; each consumes exactly that token; and a `code` tag does the same when
it is read by the driver at the outermost level and by the loop of a function
block. -/
theorem tag_emitter_output (isSpace : Byte → Bool) (fn fa fnt p : Bytes) (rest : List Token)
    (tok : Token) (err : Bool) (w : Sink) (fuel : Nat) :
    parseCode ⟨tagContents p :: rest, tok, err⟩ w
        = .done ⟨rest, tagContents p, err⟩ (w ++ [p ++ ascii "\n"])
      ∧ parseS ⟨tagContents p :: rest, tok, err⟩ w
        = .done ⟨rest, tagContents p, err⟩ (w ++ [ascii "w.E.S(" ++ p ++ ascii ")\n"])
      ∧ parseD ⟨tagContents p :: rest, tok, err⟩ w
        = .done ⟨rest, tagContents p, err⟩ (w ++ [ascii "w.D(" ++ p ++ ascii ")\n"])
      ∧ parseF ⟨tagContents p :: rest, tok, err⟩ w
        = .done ⟨rest, tagContents p, err⟩ (w ++ [ascii "w.F(" ++ p ++ ascii ")\n"])
      ∧ parseTemplateLoop isSpace (fuel + 1)
          ⟨tagName "code" :: tagContents p :: rest, tok, err⟩ w
        = parseTemplateLoop isSpace fuel ⟨rest, tagContents p, err⟩ (w ++ [p ++ ascii "\n"])
      ∧ parseFuncLoop fn fa fnt (fuel + 1)
          ⟨tagName "code" :: tagContents p :: rest, tok, err⟩ w
        = parseFuncLoop fn fa fnt fuel ⟨rest, tagContents p, err⟩ (w ++ [p ++ ascii "\n"]) := by
  refine ⟨?_, ?_, ?_, ?_, ?_, ?_⟩
  · simp [parseCode, expectTagContents, expectToken, Scanner.Next, Scanner.Token, tagContents,
      fprintf]
  · simp [parseS, expectTagContents, expectToken, Scanner.Next, Scanner.Token, tagContents,
      fprintf]
  · simp [parseD, expectTagContents, expectToken, Scanner.Next, Scanner.Token, tagContents,
      fprintf]
  · simp [parseF, expectTagContents, expectToken, Scanner.Next, Scanner.Token, tagContents,
      fprintf]
  · rw [parseTemplateLoop]
    simp [parseCode, expectTagContents, expectToken, Scanner.Next, Scanner.Token, tagContents,
      tagName, fprintf]
  · rw [parseFuncLoop]
    simp only [Scanner.Next, Scanner.Token, tagName,
      if_neg (show ascii "code" ≠ ascii "endfunc" by decide),
      if_neg (show ascii "code" ≠ ascii "s" by decide),
      if_neg (show ascii "code" ≠ ascii "d" by decide),
      if_neg (show ascii "code" ≠ ascii "f" by decide), if_true]
    simp [parseCode, expectTagContents, expectToken, Scanner.Next, Scanner.Token, tagContents,
      fprintf]

/-- C14. Structural errors at the outermost level: after any complete units,
a `TagName` token whose value is neither `code` nor `func`, or a token that is
neither `Text` nor `TagName`, ends the translation with the error of its kind,
whatever tokens follow and whether the token source ends with an error or not;
the sink holds the output of the units before it and nothing more. -/
theorem topLevel_structural_error (isSpace : Byte → Bool) (us : List TopItem)
    (hus : ∀ u ∈ us, u.splittable isSpace = true) (t : Token) (rest : List Token) (err : Bool)
    (hbad : (t.ID = TokenID.TagName ∧ t.Value ≠ ascii "code" ∧ t.Value ≠ ascii "func")
      ∨ (t.ID ≠ TokenID.Text ∧ t.ID ≠ TokenID.TagName)) :
    translate isSpace (topTokens us ++ t :: rest) err
      = .aborted (if t.ID = TokenID.TagName then Abort.unexpectedTagOutsideFunc
          else Abort.unexpectedTokenTemplate)
        (translate isSpace (topTokens us) false).sink := by
  have h := translate_units_abort isSpace us hus (t :: rest) err _ []
    (fun fuel tok w => by
      rw [parseTemplateLoop_bad_token isSpace t rest hbad fuel tok err w, List.append_nil])
  rw [h, List.append_nil]

theorem topLevel_structural_error_witness :
    translate isSpaceAscii
        (topTokens [TopItem.code (ascii "package x")]
          ++ tagName "s" :: [tagContents (ascii "title"), tagName "endfunc"]) true
      = .aborted (if (tagName "s").ID = TokenID.TagName then Abort.unexpectedTagOutsideFunc
          else Abort.unexpectedTokenTemplate)
        (translate isSpaceAscii (topTokens [TopItem.code (ascii "package x")]) false).sink :=
  topLevel_structural_error isSpaceAscii [TopItem.code (ascii "package x")] (by decide)
    (tagName "s") [tagContents (ascii "title"), tagName "endfunc"] true (by decide)

/-- C15. Structural errors in a function body: after any complete units, in a
function block whose signature splits, a token read by the body loop that is a
`TagName` with a value other than `s`, `d`, `f`, `code` and `endfunc`, or that
is neither `Text` nor `TagName`, ends the whole translation with the error of
its kind; the sink holds the output of the units, the header of the streaming
routine and the emissions of the body items before the token, and no closing
text. -/
theorem body_structural_error (isSpace : Byte → Bool) (us : List TopItem)
    (hus : ∀ u ∈ us, u.splittable isSpace = true) (sig name args names : Bytes)
    (items : List BodyItem) (t : Token) (rest : List Token) (err : Bool)
    (hs : splitFnameFargs isSpace sig = .ok (name, args, names))
    (hbad : (t.ID = TokenID.TagName
        ∧ t.Value ∉ [ascii "s", ascii "d", ascii "f", ascii "code", ascii "endfunc"])
      ∨ (t.ID ≠ TokenID.Text ∧ t.ID ≠ TokenID.TagName)) :
    translate isSpace (topTokens us ++ (openBlock sig items ++ t :: rest)) err
      = .aborted (if t.ID = TokenID.TagName then Abort.unexpectedTagInsideFunc
          else Abort.unexpectedTokenFunc)
        ((translate isSpace (topTokens us) false).sink
          ++ ([ascii "\nfunc " ++ name ++ ascii "Stream(w *quicktemplate.Writer, " ++ args
                ++ ascii ") \x7b\n"]
            ++ bodyEmission items)) := by
  have h := translate_units_abort isSpace us hus (openBlock sig items ++ t :: rest) err _ _
    (parseTemplateLoop_body_abort isSpace sig name args names items (t :: rest) err _ hs
      (fun fuel tok w => parseFuncLoop_bad_token name args names t rest hbad fuel tok err w))
  rw [h]
  simp [emitFuncStart, fprintf]

theorem body_structural_error_witness :
    translate isSpaceAscii
        (topTokens [TopItem.text (ascii "\n")]
          ++ (openBlock (ascii "Page(n int)") [BodyItem.d (ascii "n")]
            ++ tagName "func" :: [tagContents (ascii "Inner()")])) false
      = .aborted (if (tagName "func").ID = TokenID.TagName then Abort.unexpectedTagInsideFunc
          else Abort.unexpectedTokenFunc)
        ((translate isSpaceAscii (topTokens [TopItem.text (ascii "\n")]) false).sink
          ++ ([ascii "\nfunc " ++ ascii "Page" ++ ascii "Stream(w *quicktemplate.Writer, "
                ++ ascii "n int" ++ ascii ") \x7b\n"]
            ++ bodyEmission [BodyItem.d (ascii "n")])) :=
  body_structural_error isSpaceAscii [TopItem.text (ascii "\n")] (by decide)
    (ascii "Page(n int)") (ascii "Page") (ascii "n int") (ascii "n") [BodyItem.d (ascii "n")]
    (tagName "func") [tagContents (ascii "Inner()")] false (by decide) (by decide)

/-- C16. Required tag contents: when the token source is exhausted right after
a tag name, or the next token is not a `TagContents` token, the translation
ends with the error of `expectToken` and the tag writes nothing. This holds
for `code` and `func` at the outermost level, after any complete units, where
the sink is left with the output of those units (no routine header for
`func`), and for `endfunc`, `s`, `d`, `f` and `code` in a function body, where
the sink is left with the header and the emissions of the body items before
the tag (no closing text for `endfunc`). -/
theorem required_tag_contents (isSpace : Byte → Bool) (us : List TopItem)
    (hus : ∀ u ∈ us, u.splittable isSpace = true) (rest : List Token) (err : Bool)
    (hrest : rest.head?.map Token.ID ≠ some TokenID.TagContents) :
    (∀ X ∈ ["code", "func"],
        translate isSpace (topTokens us ++ tagName X :: rest) err
          = .aborted (missingContents rest) (translate isSpace (topTokens us) false).sink)
      ∧ (∀ X ∈ ["endfunc", "s", "d", "f", "code"],
          ∀ (sig name args names : Bytes) (items : List BodyItem),
            splitFnameFargs isSpace sig = .ok (name, args, names) →
              translate isSpace (topTokens us ++ (openBlock sig items ++ tagName X :: rest)) err
                = .aborted (missingContents rest)
                    ((translate isSpace (topTokens us) false).sink
                      ++ ([ascii "\nfunc " ++ name ++ ascii "Stream(w *quicktemplate.Writer, "
                            ++ args ++ ascii ") \x7b\n"]
                        ++ bodyEmission items))) := by
  constructor
  · intro X hX
    have h := translate_units_abort isSpace us hus (tagName X :: rest) err _ []
      (fun fuel tok w => by
        rw [parseTemplateLoop_missing_contents isSpace X hX rest hrest fuel tok err w,
          List.append_nil])
    rw [h, List.append_nil]
  · intro X hX sig name args names items hs
    have h := translate_units_abort isSpace us hus (openBlock sig items ++ tagName X :: rest)
      err _ _
      (parseTemplateLoop_body_abort isSpace sig name args names items (tagName X :: rest) err _ hs
        (fun fuel tok w =>
          parseFuncLoop_missing_contents name args names X hX rest hrest fuel tok err w))
    rw [h]
    simp [emitFuncStart, fprintf]

theorem required_tag_contents_witness :
    ([tagName "s"].head?.map Token.ID ≠ some TokenID.TagContents)
      ∧ translate isSpaceAscii
          (topTokens [TopItem.code (ascii "package x")] ++ tagName "func" :: [tagName "s"]) false
        = .aborted (missingContents [tagName "s"])
            (translate isSpaceAscii (topTokens [TopItem.code (ascii "package x")]) false).sink
      ∧ translate isSpaceAscii (topTokens [TopItem.code (ascii "package x")]
            ++ (openBlock (ascii "Page()") [BodyItem.text (ascii "hi")]
              ++ tagName "endfunc" :: [tagName "s"])) false
        = .aborted (missingContents [tagName "s"])
            ((translate isSpaceAscii (topTokens [TopItem.code (ascii "package x")]) false).sink
              ++ ([ascii "\nfunc " ++ ascii "Page" ++ ascii "Stream(w *quicktemplate.Writer, "
                    ++ [] ++ ascii ") \x7b\n"]
                ++ bodyEmission [BodyItem.text (ascii "hi")])) :=
  ⟨by decide,
    (required_tag_contents isSpaceAscii [TopItem.code (ascii "package x")] (by decide)
      [tagName "s"] false (by decide)).1 "func" (by decide),
    (required_tag_contents isSpaceAscii [TopItem.code (ascii "package x")] (by decide)
      [tagName "s"] false (by decide)).2 "endfunc" (by decide) (ascii "Page()") (ascii "Page")
      [] [] [BodyItem.text (ascii "hi")] (by decide)⟩

/-- C17. Text at the outermost level is discarded: after any complete units, a
`Text` token read by the driver writes nothing, so the translation with it and
the translation without it end the same way with the same sink; and a token
sequence of `Text` tokens only, with no source error, succeeds with an empty
sink. -/
theorem topLevel_text_discarded (isSpace : Byte → Bool) (us : List TopItem)
    (hus : ∀ u ∈ us, u.splittable isSpace = true) (v : Bytes) (rest : List Token) (err : Bool) :
    ((translate isSpace (topTokens us ++ ⟨TokenID.Text, v⟩ :: rest) err).abort
          = (translate isSpace (topTokens us ++ rest) err).abort
        ∧ (translate isSpace (topTokens us ++ ⟨TokenID.Text, v⟩ :: rest) err).sink
          = (translate isSpace (topTokens us ++ rest) err).sink)
      ∧ ∀ toks : List Token, (∀ t ∈ toks, t.ID = TokenID.Text) →
          ∃ s, translate isSpace toks false = .done s [] := by
  constructor
  · have hus1 : ∀ u ∈ us ++ [TopItem.text v], u.splittable isSpace = true := by
      intro u hu
      rcases List.mem_append.mp hu with h | h
      · exact hus u h
      · rw [List.mem_singleton] at h
        subst h
        rfl
    have e1 : topTokens (us ++ [TopItem.text v]) ++ rest
        = topTokens us ++ ⟨TokenID.Text, v⟩ :: rest := by
      simp [topTokens, TopItem.tokens]
    have e2 : topOutput isSpace (us ++ [TopItem.text v]) = topOutput isSpace us := by
      simp [topOutput, output_text]
    have h1 := translate_units isSpace (us ++ [TopItem.text v]) hus1 rest err
    have h2 := translate_units isSpace us hus rest err
    rw [e1, e2] at h1
    exact ⟨h1.abort_eq.trans h2.abort_eq.symm, h1.sink_eq.trans h2.sink_eq.symm⟩
  · intro toks hall
    obtain ⟨tok1, h1⟩ := parseTemplateLoop_all_text isSpace toks (toks.length + 1)
      ⟨TokenID.Text, []⟩ [] hall (Nat.lt_succ_self _)
    exact ⟨_, h1⟩

theorem topLevel_text_discarded_witness :
    ((translate isSpaceAscii (topTokens [TopItem.func (ascii "F()") [] []]
            ++ ⟨TokenID.Text, ascii "\n\n"⟩ :: [tagName "code", tagContents (ascii "var x int")])
          false).abort
          = (translate isSpaceAscii (topTokens [TopItem.func (ascii "F()") [] []]
              ++ [tagName "code", tagContents (ascii "var x int")]) false).abort
        ∧ (translate isSpaceAscii (topTokens [TopItem.func (ascii "F()") [] []]
            ++ ⟨TokenID.Text, ascii "\n\n"⟩ :: [tagName "code", tagContents (ascii "var x int")])
          false).sink
          = (translate isSpaceAscii (topTokens [TopItem.func (ascii "F()") [] []]
              ++ [tagName "code", tagContents (ascii "var x int")]) false).sink)
      ∧ ∃ s, translate isSpaceAscii [⟨TokenID.Text, ascii "a"⟩, ⟨TokenID.Text, ascii "`b"⟩] false
          = .done s [] :=
  ⟨(topLevel_text_discarded isSpaceAscii [TopItem.func (ascii "F()") [] []] (by decide)
      (ascii "\n\n") [tagName "code", tagContents (ascii "var x int")] false).1,
    (topLevel_text_discarded isSpaceAscii [TopItem.func (ascii "F()") [] []] (by decide)
      (ascii "\n\n") [tagName "code", tagContents (ascii "var x int")] false).2
      [⟨TokenID.Text, ascii "a"⟩, ⟨TokenID.Text, ascii "`b"⟩] (by decide)⟩

/-- C18. The contents of `endfunc` are ignored: two token sequences that differ
only in the value of the `TagContents` token that follows an `endfunc` tag are
translated with the same outcome and the same writes to the sink, whatever
comes before and after. -/
theorem endfunc_contents_ignored (isSpace : Byte → Bool) (pre post : List Token)
    (c1 c2 : Bytes) (err : Bool) :
    (translate isSpace (pre ++ tagName "endfunc" :: tagContents c1 :: post) err).abort
        = (translate isSpace (pre ++ tagName "endfunc" :: tagContents c2 :: post) err).abort
      ∧ (translate isSpace (pre ++ tagName "endfunc" :: tagContents c1 :: post) err).sink
        = (translate isSpace (pre ++ tagName "endfunc" :: tagContents c2 :: post) err).sink := by
  have h := translate_variant isSpace _ _ err (variant_append pre post c1 c2)
  exact ⟨h.abort_eq, by simpa using h.sink_eq⟩

/-- C20. The translation is compositional over complete units: for complete
units `us` and any tokens `ts2`, the translation of the tokens of `us` followed
by `ts2` ends as the translation of `ts2` alone does (it succeeds exactly when
that one succeeds), and its sink is the sink of the translation of the tokens
of `us` followed by the sink of the translation of `ts2`. -/
theorem translate_compositional (isSpace : Byte → Bool) (us : List TopItem)
    (hus : ∀ u ∈ us, u.splittable isSpace = true) (ts2 : List Token) (err : Bool) :
    (translate isSpace (topTokens us ++ ts2) err).abort = (translate isSpace ts2 err).abort
      ∧ (translate isSpace (topTokens us ++ ts2) err).sink
        = (translate isSpace (topTokens us) false).sink ++ (translate isSpace ts2 err).sink := by
  have h := translate_units isSpace us hus ts2 err
  rw [sink_translate_units isSpace us hus false]
  exact ⟨h.abort_eq, h.sink_eq⟩

theorem translate_compositional_witness :
    (translate isSpaceAscii
        (topTokens [TopItem.text (ascii "x"), TopItem.code (ascii "import \"fmt\""),
            TopItem.func (ascii "Page(title string)") [BodyItem.s (ascii "title")] []]
          ++ [tagName "func", tagContents (ascii "Rest()")]) true).abort
        = (translate isSpaceAscii [tagName "func", tagContents (ascii "Rest()")] true).abort
      ∧ (translate isSpaceAscii
        (topTokens [TopItem.text (ascii "x"), TopItem.code (ascii "import \"fmt\""),
            TopItem.func (ascii "Page(title string)") [BodyItem.s (ascii "title")] []]
          ++ [tagName "func", tagContents (ascii "Rest()")]) true).sink
        = (translate isSpaceAscii
            (topTokens [TopItem.text (ascii "x"), TopItem.code (ascii "import \"fmt\""),
              TopItem.func (ascii "Page(title string)") [BodyItem.s (ascii "title")] []])
            false).sink
          ++ (translate isSpaceAscii [tagName "func", tagContents (ascii "Rest()")] true).sink :=
  translate_compositional isSpaceAscii
    [TopItem.text (ascii "x"), TopItem.code (ascii "import \"fmt\""),
      TopItem.func (ascii "Page(title string)") [BodyItem.s (ascii "title")] []]
    (by decide) [tagName "func", tagContents (ascii "Rest()")] true

/-! ## The claims about the failures and the name of the signature splitter -/

theorem lastIndexByte_none (c : Byte) (l : Bytes) : lastIndexByte c l = none ↔ c ∉ l := by
  induction l with
  | nil => simp [lastIndexByte]
  | cons b l ih =>
    unfold lastIndexByte
    cases hl : lastIndexByte c l with
    | some i =>
      have hmem : c ∈ l := by
        by_contra hc
        rw [ih.mpr hc] at hl
        cases hl
      simp [hmem]
    | none =>
      have hnot := ih.mp hl
      by_cases hb : b = c
      · simp [hb]
      · simp only [hb, if_false, List.mem_cons, true_iff, not_or]
        exact ⟨fun h => hb h.symm, hnot⟩

theorem takeWhile_dropWhile_of_indexByte (c : Byte) (f : Bytes) :
    ∀ n, indexByte c f = some n →
      f.takeWhile (fun b => b != c) = f.take n ∧ f.dropWhile (fun b => b != c) = f.drop n := by
  induction f with
  | nil => intro n h; simp [indexByte] at h
  | cons b f ih =>
    intro n h
    unfold indexByte at h
    by_cases hb : b = c
    · rw [if_pos hb] at h
      cases h
      simp [hb]
    · rw [if_neg hb] at h
      cases hi : indexByte c f with
      | none => rw [hi] at h; cases h
      | some m =>
        rw [hi] at h
        simp only [Option.map_some', Option.some.injEq] at h
        subst h
        obtain ⟨h1, h2⟩ := ih m hi
        have hne : (b != c) = true := by simpa using hb
        simp [List.takeWhile_cons, List.dropWhile_cons, hne, h1, h2]

theorem afterFirstParen_eq (f : Bytes) (n0 : Nat) (h0 : indexByte lparen f = some n0) :
    afterFirstParen f = f.drop (n0 + 1) := by
  rw [afterFirstParen, (takeWhile_dropWhile_of_indexByte lparen f n0 h0).2, List.drop_drop]

theorem beforeFirstParen_eq (f : Bytes) (n0 : Nat) (h0 : indexByte lparen f = some n0) :
    beforeFirstParen f = f.take n0 :=
  (takeWhile_dropWhile_of_indexByte lparen f n0 h0).1

theorem rdropWhile_append_rtakeWhile (p : Byte → Bool) (l : Bytes) :
    l.rdropWhile p ++ l.rtakeWhile p = l := by
  simp [List.rdropWhile, List.rtakeWhile, ← List.reverse_append]

/-- The text the arguments are sliced from: the trimmed whitespace but its
first byte, the `(`, and the text after it. -/
theorem drop_trimmed (p : Byte → Bool) (f : Bytes) (n0 : Nat)
    (h0 : indexByte lparen f = some n0) :
    f.drop (((f.take n0).rdropWhile p).length + 1)
      = ((f.take n0).rtakeWhile p ++ lparen :: f.drop (n0 + 1)).drop 1 := by
  obtain ⟨-, -, hsplit⟩ := indexByte_some _ _ _ h0
  have h1 : f = (f.take n0).rdropWhile p
      ++ ((f.take n0).rtakeWhile p ++ lparen :: f.drop (n0 + 1)) := by
    rw [← List.append_assoc, rdropWhile_append_rtakeWhile]
    exact hsplit
  have h2 : f.drop ((f.take n0).rdropWhile p).length
      = (f.take n0).rtakeWhile p ++ lparen :: f.drop (n0 + 1) := by
    have h3 := List.drop_left ((f.take n0).rdropWhile p)
      ((f.take n0).rtakeWhile p ++ lparen :: f.drop (n0 + 1))
    rw [← h1] at h3
    exact h3
  rw [← h2, List.drop_drop]

theorem mem_drop_trimmed_of_mem (p : Byte → Bool) (f : Bytes) (n0 : Nat)
    (h0 : indexByte lparen f = some n0) (h : rparen ∈ f.drop (n0 + 1)) :
    rparen ∈ f.drop (((f.take n0).rdropWhile p).length + 1) := by
  rw [drop_trimmed p f n0 h0]
  cases (f.take n0).rtakeWhile p with
  | nil => simpa using h
  | cons s sp => simp [h]

theorem mem_of_mem_drop_trimmed (p : Byte → Bool) (hsp : p rparen = false) (f : Bytes) (n0 : Nat)
    (h0 : indexByte lparen f = some n0)
    (h : rparen ∈ f.drop (((f.take n0).rdropWhile p).length + 1)) :
    rparen ∈ f.drop (n0 + 1) := by
  rw [drop_trimmed p f n0 h0] at h
  have h1 := List.mem_of_mem_drop h
  rcases List.mem_append.mp h1 with h2 | h2
  · have := List.mem_rtakeWhile_imp h2
    rw [hsp] at this
    cases this
  · rcases List.mem_cons.mp h2 with h3 | h3
    · exact absurd h3 (by decide)
    · exact h3

/-- C11. The failures of the signature splitter, for an `isSpace` that rejects
the byte `)`: `splitFnameFargs` fails exactly when the text has no `(` or has
no `)` after its first `(`; a failure is one of its two `log.Fatalf` calls,
never an out-of-range slice or index; on every other text it returns a
triple. -/
theorem splitFnameFargs_fails_iff (isSpace : Byte → Bool) (hsp : isSpace rparen = false)
    (f : Bytes) :
    ((∃ e, splitFnameFargs isSpace f = .error e)
        ↔ (lparen ∉ f ∨ rparen ∉ afterFirstParen f))
      ∧ (∀ e, splitFnameFargs isSpace f = .error e
          → e = Abort.missingOpenParen ∨ e = Abort.missingCloseParen)
      ∧ (lparen ∈ f → rparen ∈ afterFirstParen f → ∃ r, splitFnameFargs isSpace f = .ok r) := by
  have hiff : (∃ e, splitFnameFargs isSpace f = .error e)
      ↔ (lparen ∉ f ∨ rparen ∉ afterFirstParen f) := by
    cases h0 : indexByte lparen f with
    | none =>
      have hnot := (indexByte_none _ _).mp h0
      constructor
      · intro _
        exact Or.inl hnot
      · intro _
        exact ⟨Abort.missingOpenParen, by simp [splitFnameFargs, h0]⟩
    | some n0 =>
      have hmem : lparen ∈ f := by
        by_contra hc
        rw [(indexByte_none _ _).mpr hc] at h0
        cases h0
      rw [splitFnameFargs_eq isSpace f n0 h0, afterFirstParen_eq f n0 h0]
      cases hm : lastIndexByte rparen (f.drop (((f.take n0).rdropWhile isSpace).length + 1)) with
      | none =>
        have hnot := (lastIndexByte_none _ _).mp hm
        constructor
        · intro _
          exact Or.inr (fun hc => hnot (mem_drop_trimmed_of_mem isSpace f n0 h0 hc))
        · intro _
          exact ⟨Abort.missingCloseParen, rfl⟩
      | some m =>
        have hin : rparen ∈ f.drop (((f.take n0).rdropWhile isSpace).length + 1) := by
          by_contra hc
          rw [(lastIndexByte_none _ _).mpr hc] at hm
          cases hm
        constructor
        · rintro ⟨e, he⟩
          cases he
        · rintro (h | h)
          · exact absurd hmem h
          · exact absurd (mem_of_mem_drop_trimmed isSpace hsp f n0 h0 hin) h
  refine ⟨hiff, splitFnameFargs_error isSpace f, ?_⟩
  intro h1 h2
  cases hr : splitFnameFargs isSpace f with
  | ok r => exact ⟨r, rfl⟩
  | error e =>
    rcases hiff.mp ⟨e, hr⟩ with h | h
    · exact absurd h1 h
    · exact absurd h2 h

theorem splitFnameFargs_fails_iff_witness :
    ((∃ e, splitFnameFargs isSpaceAscii (ascii "f(a, (b) int") = .error e)
        ↔ (lparen ∉ ascii "f(a, (b) int" ∨ rparen ∉ afterFirstParen (ascii "f(a, (b) int")))
      ∧ (∀ e, splitFnameFargs isSpaceAscii (ascii "f(a, (b) int") = .error e
          → e = Abort.missingOpenParen ∨ e = Abort.missingCloseParen)
      ∧ (lparen ∈ ascii "f(a, (b) int" → rparen ∈ afterFirstParen (ascii "f(a, (b) int")
          → ∃ r, splitFnameFargs isSpaceAscii (ascii "f(a, (b) int") = .ok r) :=
  splitFnameFargs_fails_iff isSpaceAscii (by decide) (ascii "f(a, (b) int")

/-- C12. The name the signature splitter returns: for a text with a `(` and a
`)` after its first `(`, `splitFnameFargs` succeeds and the name is the text
before the first `(` without its trailing whitespace; the name holds no `(`
and does not end in a whitespace byte. -/
theorem splitFnameFargs_name (isSpace : Byte → Bool) (f : Bytes) (h1 : lparen ∈ f)
    (h2 : rparen ∈ afterFirstParen f) :
    ∃ args names,
      splitFnameFargs isSpace f = .ok ((beforeFirstParen f).rdropWhile isSpace, args, names)
        ∧ lparen ∉ (beforeFirstParen f).rdropWhile isSpace
        ∧ ∀ b, ((beforeFirstParen f).rdropWhile isSpace).getLast? = some b
            → isSpace b = false := by
  cases h0 : indexByte lparen f with
  | none => exact absurd h1 ((indexByte_none _ _).mp h0)
  | some n0 =>
    obtain ⟨-, hnot, -⟩ := indexByte_some _ _ _ h0
    rw [afterFirstParen_eq f n0 h0] at h2
    rw [beforeFirstParen_eq f n0 h0, splitFnameFargs_eq isSpace f n0 h0]
    have hin := mem_drop_trimmed_of_mem isSpace f n0 h0 h2
    cases hm : lastIndexByte rparen (f.drop (((f.take n0).rdropWhile isSpace).length + 1)) with
    | none => exact absurd hin ((lastIndexByte_none _ _).mp hm)
    | some m =>
      refine ⟨_, _, rfl, ?_, ?_⟩
      · intro hc
        exact hnot ((List.rdropWhile_prefix isSpace (f.take n0)).subset hc)
      · intro b hb
        have hne : (f.take n0).rdropWhile isSpace ≠ [] := by
          intro hnil
          rw [hnil] at hb
          cases hb
        have hlast := List.rdropWhile_last_not isSpace (f.take n0) hne
        rw [List.getLast?_eq_getLast _ hne, Option.some.injEq] at hb
        rw [← hb]
        simpa using hlast

theorem splitFnameFargs_name_witness :
    ∃ args names,
      splitFnameFargs isSpaceAscii (ascii "Page \t(title string)")
          = .ok ((beforeFirstParen (ascii "Page \t(title string)")).rdropWhile isSpaceAscii,
              args, names)
        ∧ lparen ∉ (beforeFirstParen (ascii "Page \t(title string)")).rdropWhile isSpaceAscii
        ∧ ∀ b, ((beforeFirstParen (ascii "Page \t(title string)")).rdropWhile
              isSpaceAscii).getLast? = some b → isSpaceAscii b = false :=
  splitFnameFargs_name isSpaceAscii (ascii "Page \t(title string)") (by decide) (by decide)

/-! ## The claim about the raw literals of the text emitter -/

theorem count_backtick_rawCall (r : Bytes) (h : backtick ∉ r) :
    (ascii "w.E.S(`" ++ r ++ ascii "`)\n").count backtick = 2 := by
  have h1 : (ascii "w.E.S(`").count backtick = 1 := by decide
  have h2 : (ascii "`)\n").count backtick = 1 := by decide
  rw [List.count_append, List.count_append, h1, h2, List.count_eq_zero_of_not_mem h]

theorem emitTextLoop_shape :
    ∀ (fuel : Nat) (text : Bytes), text.length < fuel →
      ∃ calls : List Bytes,
        (∀ w, emitTextLoop fuel w text = .ok (w ++ calls))
          ∧ ∀ c ∈ calls,
              (c = ascii "w.E.S(\"`\")\n" ∧ c.count backtick = 1)
                ∨ (∃ r, backtick ∉ r ∧ c = ascii "w.E.S(`" ++ r ++ ascii "`)\n"
                    ∧ c.count backtick = 2) := by
  intro fuel
  induction fuel with
  | zero => intro text h; omega
  | succ fuel ih =>
    intro text hlen
    by_cases hne : text = []
    · subst hne
      exact ⟨[], fun w => by simp [emitTextLoop_nil], by simp⟩
    · cases hi : indexByte backtick text with
      | none =>
        have hnot := (indexByte_none _ _).mp hi
        refine ⟨[rawCall text], fun w => emitTextLoop_plain fuel w text hne hnot, ?_⟩
        intro c hc
        rw [List.mem_singleton] at hc
        subst hc
        exact Or.inr ⟨text, hnot, rfl, count_backtick_rawCall text hnot⟩
      | some n =>
        obtain ⟨hlt, hnot, -⟩ := indexByte_some _ _ _ hi
        obtain ⟨calls, hrun, hshape⟩ :=
          ih (text.drop (n + 1)) (by rw [List.length_drop]; omega)
        refine ⟨rawCall (text.take n) :: quotedCall :: calls, ?_, ?_⟩
        · intro w
          rw [emitTextLoop_step fuel w text n hi, hrun]
          simp
        · intro c hc
          rcases List.mem_cons.mp hc with h1 | h1
          · subst h1
            exact Or.inr ⟨text.take n, hnot, rfl, count_backtick_rawCall _ hnot⟩
          · rcases List.mem_cons.mp h1 with h2 | h2
            · subst h2
              exact Or.inl ⟨rfl, by decide⟩
            · exact hshape c h2

/-- C19. The raw literals `emitText` writes hold no backtick: every chunk it
appends is the call with the interpreted literal of one backtick, which holds
that one backtick, or a call that wraps in a raw literal a run without a
backtick, which holds the two delimiting backticks only. -/
theorem emitText_raw_literals_delimiter_free (w : Sink) (text : Bytes) :
    ∃ calls : List Bytes,
      emitText w text = .ok (w ++ calls)
        ∧ ∀ c ∈ calls,
            (c = ascii "w.E.S(\"`\")\n" ∧ c.count backtick = 1)
              ∨ (∃ r, backtick ∉ r ∧ c = ascii "w.E.S(`" ++ r ++ ascii "`)\n"
                  ∧ c.count backtick = 2) := by
  obtain ⟨calls, hrun, hshape⟩ := emitTextLoop_shape (text.length + 1) text (Nat.lt_succ_self _)
  exact ⟨calls, hrun w, hshape⟩

end Quicktemplate
